import Mathlib

/-!
Verification of the formula grammar, call extraction, reconstruction,
substitution and expansion engine of the named-functions repository
(`scripts/generate_readme.py` and `scripts/formula_parser.py`).

The Python values flowing through that code are nested
`pyparsing.ParseResults` objects, plain strings, ints/floats, marker
tuples `('__STRING_LITERAL__', s)` / `('__PARENTHESIZED__', node)`, and
the dict/list representation produced by `ParseResults.as_dict()`.  We
embed them as the inductive `PNode` below; every function of the source
is translated over that type.
-/

namespace NamedFns

/-- Word characters of Python's `re` `\b` / `\w` for ASCII text:
letters, digits and underscore. -/
def isWordChar (c : Char) : Bool :=
  c.isAlpha || c.isDigit || c = '_'

/-- Whitespace characters recognised by Python's `str.strip()` (ASCII). -/
def isPyWS (c : Char) : Bool :=
  c = ' ' || c = '\t' || c = '\n' || c = '\r' || c = '\x0c' || c = '\x0b'

/-- Whitespace characters of Python's `re` `\s` (ASCII). -/
def isReWS (c : Char) : Bool :=
  c = ' ' || c = '\t' || c = '\n' || c = '\r' || c = '\x0c' || c = '\x0b'

/-- Whitespace skipped between tokens by pyparsing
(`ParserElement.DEFAULT_WHITE_CHARS`). -/
def isPPWS (c : Char) : Bool :=
  c = ' ' || c = '\n' || c = '\t'

/-- `str.startswith` / `str.endswith` on `String`s (kernel-reducible
replacements for the library versions). -/
def strStartsWith (s pre : String) : Bool := pre.data.isPrefixOf s.data

def strEndsWith (s suf : String) : Bool :=
  suf.data.reverse.isPrefixOf s.data.reverse

/-- Python `str.strip()` on a character list. -/
def pyStrip (s : List Char) : List Char :=
  ((s.dropWhile isPyWS).reverse.dropWhile isPyWS).reverse

/-- Python `str.replace(old, new)`: replace every non-overlapping
occurrence, scanning left to right, never rescanning inserted text.
`old` is nonempty at every use site below (Python inserts `new` between
every character when `old` is empty; that case is never exercised).
The fuel argument (one unit per character examined, supplied
generously by the wrapper) only realises termination. -/
def replaceAllGo (old new : List Char) : Nat → List Char → List Char
  | _, [] => []
  | 0, s => s
  | fuelN + 1, c :: rest =>
    if old ≠ [] ∧ old.isPrefixOf (c :: rest) then
      new ++ replaceAllGo old new fuelN ((c :: rest).drop old.length)
    else
      c :: replaceAllGo old new fuelN rest

def replaceAll (old new s : List Char) : List Char :=
  replaceAllGo old new (s.length + 1) s

/-- `str.replace` on `String`s. -/
def strReplace (s old new : String) : String :=
  ⟨replaceAll old.data new.data s.data⟩

/-- Embedding of the Python values the formula engine manipulates
(strings, ints, floats, marker tuples, `ParseResults` groups /
`as_dict` lists, and function-call records with `function` / `args`
fields).

A float literal (`num_f`) carries the raw matched text; Python converts
it with `float()` and later renders it with `str()`.  That conversion is
floating-point behaviour we do not model; no theorem below evaluates the
rendering of a float literal. -/
inductive PNode where
  | str (s : String)
  | num (n : Int)
  | num_f (raw : String)
  | strLit (content : String)
  | paren (inner : PNode)
  | call (name : String) (args : List PNode)
  | group (items : List PNode)
  deriving Repr

/-- Python's `' '.join` (recursion-transparent equivalent of
`String.intercalate " "`). -/
def joinSpace : List String → String
  | [] => ""
  | [x] => x
  | x :: xs => x ++ " " ++ joinSpace xs

/-- The paren-rejoining pass inside `reconstruct_call.stringify` for
list arguments: scan the stringified items; when an item is the bare
string `"("`, search for a depth-matched bare `")"` and re-join the
enclosed items with single spaces inside parentheses.  Direct port of
the `while i < len(stringified_items)` loop. -/
def findCloseParen : Nat → List String → Option (List String × List String)
  | _, [] => none
  | depth, x :: xs =>
    if x = "(" then
      match findCloseParen (depth + 1) xs with
      | some (inner, rest) => some (x :: inner, rest)
      | none => none
    else if x = ")" then
      if depth = 0 then some ([], xs)
      else
        match findCloseParen (depth - 1) xs with
        | some (inner, rest) => some (x :: inner, rest)
        | none => none
    else
      match findCloseParen depth xs with
      | some (inner, rest) => some (x :: inner, rest)
      | none => none

/-- The rejoining loop proper: produces the `result_parts` list (fuel
realises termination and is supplied generously by `stringify`). -/
def rejoinParensGo : Nat → List String → List String
  | _, [] => []
  | 0, s => s
  | fuelN + 1, x :: xs =>
    -- the Python guard `i < len(stringified_items) - 2` requires at
    -- least two further items after the "(" candidate
    if x = "(" ∧ 2 ≤ xs.length then
      match findCloseParen 0 xs with
      | some (inner, rest) =>
        ("(" ++ joinSpace inner ++ ")") :: rejoinParensGo fuelN rest
      | none => x :: rejoinParensGo fuelN xs
    else
      x :: rejoinParensGo fuelN xs

def rejoinParens (items : List String) : List String :=
  rejoinParensGo (items.length + 1) items

/-- The argument joiner at the end of `reconstruct_call`: commas get a
trailing space only before a nonempty argument (so `IF(,,)` keeps its
shape). -/
def joinArgsTail : List String → String
  | [] => ""
  | s :: rest => (if s ≠ "" then ", " else ",") ++ s ++ joinArgsTail rest

def joinArgs : List String → String
  | [] => ""
  | s :: rest => s ++ joinArgsTail rest

mutual
/-- Port of the inner `stringify` of
`FormulaParser.reconstruct_call` (identical in
`scripts/formula_parser.py` and `scripts/generate_readme.py`).  The
`paren` case first converts the stored expression group to a plain list,
so it lands in the list case, which is what `stringify (.group items)`
computes; the dict and `ParseResults` cases of the Python code both
reduce a call node to `reconstruct_call`, whose body is inlined here
(`reconstructCall` below is the same expression). -/
def stringify : PNode → String
  | .str s => if s = "__EMPTY__" then "" else s
  | .paren inner => "(" ++ stringify inner ++ ")"
  | .strLit c => "\"" ++ c ++ "\""
  | .num n => toString n
  | .num_f raw => raw
  | .call n args => n ++ "(" ++ joinArgs (stringifyList args) ++ ")"
  | .group items =>
    joinSpace (rejoinParens (stringifyList items))
def stringifyList : List PNode → List String
  | [] => []
  | x :: xs => stringify x :: stringifyList xs
end

/-- Port of `FormulaParser.reconstruct_call`. -/
def reconstructCall (name : String) (args : List PNode) : String :=
  name ++ "(" ++ joinArgs (stringifyList args) ++ ")"

/-- One call found by the extractor (`node` backreference of the Python
dict is never read downstream and is omitted). -/
structure CallSite where
  name : String
  args : List PNode
  depth : Nat
  deriving Repr

mutual
/-- Port of the `walk` helper of
`FormulaParser.extract_function_calls` (identical in both source
files): a call node is recorded when its name is known, and its
arguments are walked one level deeper whether or not the name is known;
groups, parenthesized markers and lists are walked at the same depth;
strings, numbers and string-literal markers contribute nothing. -/
def walkNode (named : List String) : PNode → Nat → List CallSite
  | .call n args, d =>
    (if n ∈ named then [⟨n, args, d⟩] else []) ++ walkList named args (d + 1)
  | .group items, d => walkList named items d
  | .paren inner, d => walkNode named inner d
  | .str _, _ => []
  | .num _, _ => []
  | .num_f _, _ => []
  | .strLit _, _ => []
def walkList (named : List String) : List PNode → Nat → List CallSite
  | [], _ => []
  | x :: xs, d => walkNode named x d ++ walkList named xs d
end

/-- Stable insertion step used to model Python's stable
`sorted(calls, key=lambda c: c["depth"], reverse=True)`. -/
def insertDesc (c : CallSite) : List CallSite → List CallSite
  | [] => [c]
  | x :: xs => if x.depth < c.depth then c :: x :: xs else x :: insertDesc c xs

/-- Stable sort by depth, descending (equal depths keep their original
relative order, as Python's sort guarantees). -/
def sortByDepthDesc (l : List CallSite) : List CallSite :=
  l.foldl (fun acc c => insertDesc c acc) []

/-- Port of `FormulaParser.extract_function_calls`. -/
def extractFunctionCalls (ast : PNode) (named : List String) : List CallSite :=
  sortByDepthDesc (walkNode named ast 0)

/-! ### The grammar

Both source files define the same pyparsing grammar except for string
literals: `scripts/generate_readme.py` uses
`QuotedString(q, esc_char=BACKSLASH)` while `scripts/formula_parser.py`
uses the doubled-quote regexes.  The parsers below thread two pieces of
state: the remaining input and the character immediately before the
current position (pyparsing's `instring[loc-1]`, which `Keyword`
inspects).  Ordered choice, atomic sequence failure and
whitespace-skipping before every leaf token reproduce pyparsing's
behaviour; `Forward` recursion is realised with fuel, which strictly
decreases at each combinator level and is chosen large enough at the
top entry point that exhaustion is unreachable on any input. -/

def identInitChar (c : Char) : Bool := c.isAlpha || c = '_'
def identBodyChar (c : Char) : Bool := c.isAlphanum || c = '_'
def cellInitChar (c : Char) : Bool := c.isAlpha || c = '$'
def cellBodyChar (c : Char) : Bool := c.isAlphanum || c = '$' || c = '_'
def letterDollar (c : Char) : Bool := c.isAlpha || c = '$'
def digitDollar (c : Char) : Bool := c.isDigit || c = '$'

/-- Keyword boundary characters (`Keyword.DEFAULT_KEYWORD_CHARS`). -/
def kwChar (c : Char) : Bool := c.isAlphanum || c = '_' || c = '$'

def lastOr (cs : List Char) (p : Option Char) : Option Char :=
  match cs.getLast? with
  | some c => some c
  | none => p

/-- Skip pyparsing whitespace, updating the previous-character state. -/
def skipPP (p : Option Char) (s : List Char) : Option Char × List Char :=
  (lastOr (s.takeWhile isPPWS) p, s.dropWhile isPPWS)

/-- `Word(init_chars, body_chars)`: maximal munch of at least one
character after whitespace skipping. -/
def pWord (init body : Char → Bool) (p : Option Char) (s : List Char) :
    Option (String × Option Char × List Char) :=
  let (p', s') := skipPP p s
  match s' with
  | [] => none
  | c :: rest =>
    if init c then
      let tok := c :: rest.takeWhile body
      some (String.mk tok, lastOr tok p', rest.dropWhile body)
    else none

/-- `Literal(ch)` for a single character. -/
def pLitCh (ch : Char) (p : Option Char) (s : List Char) :
    Option (Option Char × List Char) :=
  let (_, s') := skipPP p s
  match s' with
  | c :: rest => if c = ch then some (some ch, rest) else none
  | [] => none

/-- `one_of("+ - * / ^ & = <> < > <= >=")`: longest alternatives are
matched first, as pyparsing's generated regex guarantees. -/
def pBasicOp (p : Option Char) (s : List Char) :
    Option (String × Option Char × List Char) :=
  let (_, s') := skipPP p s
  match s' with
  | [] => none
  | c :: r =>
    if c = '<' ∧ r.head? = some '>' then some ("<>", some '>', r.tail)
    else if c = '<' ∧ r.head? = some '=' then some ("<=", some '=', r.tail)
    else if c = '>' ∧ r.head? = some '=' then some (">=", some '=', r.tail)
    else if c = '+' ∨ c = '-' ∨ c = '*' ∨ c = '/' ∨ c = '^' ∨ c = '&' ∨
        c = '=' ∨ c = '<' ∨ c = '>' then
      some (String.mk [c], some c, r)
    else none

/-- `one_of("+ -")`, the unary prefixes. -/
def pUnaryOp (p : Option Char) (s : List Char) :
    Option (String × Option Char × List Char) :=
  let (_, s') := skipPP p s
  match s' with
  | c :: r => if c = '+' ∨ c = '-' then some (String.mk [c], some c, r) else none
  | [] => none

/-- `CaselessKeyword(kw)`: case-insensitive match returning the
canonical `kw`, with keyword-character boundary checks on both sides
(the left check inspects the character before the match, pyparsing's
`instring[loc-1]`). -/
def pCaselessKeyword (kw : List Char) (p : Option Char) (s : List Char) :
    Option (String × Option Char × List Char) :=
  let (p', s') := skipPP p s
  let taken := s'.take kw.length
  let prevOk : Bool :=
    match p' with
    | some c => !kwChar c
    | none => true
  let nextOk : Bool :=
    match s'.drop kw.length with
    | c :: _ => !kwChar c
    | [] => true
  if taken.map Char.toUpper = kw ∧ taken.length = kw.length ∧ prevOk ∧ nextOk then
    some (String.mk kw, lastOr taken p', s'.drop kw.length)
  else none

/-- `operators = CaselessKeyword("AND") | CaselessKeyword("OR") |
basic_operators`. -/
def pOperators (p : Option Char) (s : List Char) :
    Option (String × Option Char × List Char) :=
  match pCaselessKeyword ['A', 'N', 'D'] p s with
  | some r => some r
  | none =>
    match pCaselessKeyword ['O', 'R'] p s with
    | some r => some r
    | none => pBasicOp p s

def digitsToNat (ds : List Char) : Nat :=
  ds.foldl (fun acc c => acc * 10 + (c.toNat - '0'.toNat)) 0

/-- `pyparsing_common.number = sci_real | real | signed_integer`.
An integral match is converted with `int()` (the `num` constructor); a
match containing a decimal point or an exponent is converted with
`float()` and carried as raw text (`num_f`, see `PNode`).  The regex
alternation and its backtracking reduce to the deterministic branching
below. -/
def pNumber (p : Option Char) (s : List Char) :
    Option (PNode × Option Char × List Char) :=
  let (p', s') := skipPP p s
  let (sign, s1) :=
    match s' with
    | c :: r => if c = '+' ∨ c = '-' then ([c], r) else ([], s')
    | [] => ([], s')
  let digits := s1.takeWhile Char.isDigit
  let restD := s1.drop digits.length
  let expTail : List Char → Option (List Char × List Char) := fun inp =>
    -- `[eE][+-]?\d+`, or `none` when the exponent is malformed
    match inp with
    | e :: r1 =>
      if e = 'e' ∨ e = 'E' then
        let (s2, r2) :=
          match r1 with
          | c :: r => if c = '+' ∨ c = '-' then ([c], r) else ([], r1)
          | [] => ([], r1)
        let expd := r2.takeWhile Char.isDigit
        if expd ≠ [] then some (e :: s2 ++ expd, r2.drop expd.length)
        else none
      else none
    | [] => none
  if digits ≠ [] then
    match expTail restD with
    | some (ec, rest) =>
      let raw := sign ++ digits ++ ec
      some (.num_f (String.mk raw), lastOr raw p', rest)
    | none =>
      match restD with
      | '.' :: r1 =>
        let frac := r1.takeWhile Char.isDigit
        let afterF := r1.drop frac.length
        let (ec, rest) :=
          match expTail afterF with
          | some (ec, rest) => (ec, rest)
          | none => ([], afterF)
        let raw := sign ++ digits ++ '.' :: frac ++ ec
        some (.num_f (String.mk raw), lastOr raw p', rest)
      | _ =>
        let v : Int := Int.ofNat (digitsToNat digits)
        some (.num (if sign = ['-'] then -v else v), lastOr (sign ++ digits) p',
          restD)
  else
    match s1 with
    | '.' :: r1 =>
      let frac := r1.takeWhile Char.isDigit
      if frac ≠ [] then
        let afterF := r1.drop frac.length
        let (ec, rest) :=
          match expTail afterF with
          | some (ec, rest) => (ec, rest)
          | none => ([], afterF)
        let raw := sign ++ '.' :: frac ++ ec
        some (.num_f (String.mk raw), lastOr raw p', rest)
      else none
    | _ => none

/-- Scanner for the doubled-quote string regex of
`scripts/formula_parser.py`, `q("" | [^q])* q` matched greedily: an odd
run of quotes closes the literal; an even run is absorbed as escaped
pairs while remembering the longest earlier close (regex backtracking
when no later close exists).  Returns the raw content between the outer
quotes and the remaining input. -/
def scanDQ (q : Char) : Nat → List Char → Option (List Char × List Char) →
    List Char → Option (List Char × List Char)
  | _, _, cand, [] => cand
  | 0, _, cand, _ => cand
  | fuelN + 1, acc, cand, c :: rest =>
    if c = q then
      let run := (c :: rest).takeWhile (· = q)
      let k := run.length
      let after := (c :: rest).dropWhile (· = q)
      if k % 2 = 1 then some (acc ++ List.replicate (k - 1) q, after)
      else scanDQ q fuelN (acc ++ run)
        (some (acc ++ List.replicate (k - 2) q, q :: after)) after
    else scanDQ q fuelN (acc ++ [c]) cand rest

/-- Scanner for `QuotedString(q, esc_char=BACKSLASH)` of
`scripts/generate_readme.py`: a backslash escapes any character except a
newline; bare backslashes, newlines and carriage returns are not
allowed; the first unescaped `q` closes.  Returns raw content (escapes
still present) and the remaining input. -/
def scanBS (q : Char) : Nat → List Char → List Char →
    Option (List Char × List Char)
  | _, _, [] => none
  | 0, _, _ => none
  | fuelN + 1, acc, c :: rest =>
    if c = q then some (acc, rest)
    else if c = '\\' then
      match rest with
      | d :: r2 => if d ≠ '\n' then scanBS q fuelN (acc ++ [c, d]) r2 else none
      | [] => none
    else if c = '\n' ∨ c = '\r' then none
    else scanBS q fuelN (acc ++ [c]) rest

/-- Unquoting of a `QuotedString` result: whitespace escapes are
converted, then remaining escape characters are dropped
(`convert_whitespace_escapes` followed by the `esc_char` removal). -/
def unescapeBS (content : List Char) : List Char :=
  let c1 := replaceAll ['\\', 't'] ['\t'] content
  let c2 := replaceAll ['\\', 'n'] ['\n'] c1
  let c3 := replaceAll ['\\', 'f'] ['\x0c'] c2
  let c4 := replaceAll ['\\', 'r'] ['\r'] c3
  let rec dropEsc : List Char → List Char
    | [] => []
    | '\\' :: d :: r => d :: dropEsc r
    | c :: r => c :: dropEsc r
  dropEsc c4

/-- String literal in doubled-quote mode (`formula_parser.py`): the
parse action unescapes doubled quotes of the matched kind. -/
def pStringFP (p : Option Char) (s : List Char) :
    Option (PNode × Option Char × List Char) :=
  let (_, s') := skipPP p s
  match s' with
  | '"' :: rest =>
    match scanDQ '"' (rest.length + 1) [] none rest with
    | some (content, after) =>
      some (.strLit ⟨replaceAll ['"', '"'] ['"'] content⟩, some '"', after)
    | none => none
  | '\'' :: rest =>
    match scanDQ '\'' (rest.length + 1) [] none rest with
    | some (content, after) =>
      some (.strLit ⟨replaceAll ['\'', '\''] ['\''] content⟩, some '\'', after)
    | none => none
  | _ => none

/-- String literal in backslash mode (`generate_readme.py`). -/
def pStringGR (p : Option Char) (s : List Char) :
    Option (PNode × Option Char × List Char) :=
  let (_, s') := skipPP p s
  match s' with
  | '"' :: rest =>
    match scanBS '"' (rest.length + 1) [] rest with
    | some (content, after) => some (.strLit ⟨unescapeBS content⟩, some '"', after)
    | none => none
  | '\'' :: rest =>
    match scanBS '\'' (rest.length + 1) [] rest with
    | some (content, after) => some (.strLit ⟨unescapeBS content⟩, some '\'', after)
    | none => none
  | _ => none

def pStringLit (dq : Bool) (p : Option Char) (s : List Char) :
    Option (PNode × Option Char × List Char) :=
  if dq then pStringFP p s else pStringGR p s

/-- Array literal regex `LBRACE [^RBRACE]* [^,;\s RBRACE] [^RBRACE]* RBRACE`:
the match runs to the first closing brace and requires at least one
content character that is not a comma, semicolon or whitespace.  The
matched text is kept verbatim as a plain string token. -/
def pArray (p : Option Char) (s : List Char) :
    Option (PNode × Option Char × List Char) :=
  let (_, s') := skipPP p s
  match s' with
  | '{' :: rest =>
    let content := rest.takeWhile (· ≠ '}')
    match rest.drop content.length with
    | '}' :: r =>
      if content.any (fun c => ¬(c = ',' ∨ c = ';' ∨ isReWS c)) then
        some (.str ⟨'{' :: content ++ ['}']⟩, some '}', r)
      else none
    | _ => none
  | _ => none

/-- Range-reference regex `[A-Za-z$]*[0-9$]*:[A-Za-z$]*[0-9$]*`; greedy
runs followed by the mandatory colon (regex backtracking can never move
the colon, so the greedy reading is exact). -/
def pRange (p : Option Char) (s : List Char) :
    Option (PNode × Option Char × List Char) :=
  let (p', s') := skipPP p s
  let l1 := s'.takeWhile letterDollar
  let r1 := s'.drop l1.length
  let d1 := r1.takeWhile digitDollar
  let r2 := r1.drop d1.length
  match r2 with
  | ':' :: r3 =>
    let l2 := r3.takeWhile letterDollar
    let r4 := r3.drop l2.length
    let d2 := r4.takeWhile digitDollar
    let r5 := r4.drop d2.length
    let tok := l1 ++ d1 ++ ':' :: (l2 ++ d2)
    some (.str ⟨tok⟩, lastOr tok p', r5)
  | _ => none

/-- The parse action `fix_function_call`: a single argument that is an
empty group or the empty-argument marker collapses to no arguments. -/
def fixFunctionCall (args : List PNode) : List PNode :=
  match args with
  | [a] =>
    match a with
    | .group [] => []
    | .str s => if s = "__EMPTY__" then [] else [.str s]
    | _ => args
  | _ => args

mutual
/-- `expression <<= Group(unary_term + ZeroOrMore(operators + unary_term))`. -/
def pExpr (dq : Bool) : Nat → Option Char → List Char →
    Option (PNode × Option Char × List Char)
  | 0, _, _ => none
  | fuel + 1, p, s =>
    match pUnaryTerm dq fuel p s with
    | none => none
    | some (items, p1, s1) =>
      let (allItems, p2, s2) := pOpChain dq fuel items p1 s1
      some (.group allItems, p2, s2)

/-- `ZeroOrMore(operators + unary_term)`: each iteration is atomic — if
the operator matches but the following term does not, the operator is
left unconsumed and the chain stops. -/
def pOpChain (dq : Bool) : Nat → List PNode → Option Char → List Char →
    (List PNode × Option Char × List Char)
  | 0, acc, p, s => (acc, p, s)
  | fuel + 1, acc, p, s =>
    match pOperators p s with
    | none => (acc, p, s)
    | some (op, p1, s1) =>
      match pUnaryTerm dq fuel p1 s1 with
      | none => (acc, p, s)
      | some (items, p2, s2) => pOpChain dq fuel (acc ++ (.str op :: items)) p2 s2

/-- `unary_term = ZeroOrMore(unary_operators) + term`. -/
def pUnaryTerm (dq : Bool) : Nat → Option Char → List Char →
    Option (List PNode × Option Char × List Char)
  | 0, _, _ => none
  | fuel + 1, p, s =>
    let (ops, p1, s1) := pUnaryChain fuel p s
    match pTerm dq fuel p1 s1 with
    | none => none
    | some (t, p2, s2) => some (ops.map PNode.str ++ [t], p2, s2)

/-- `ZeroOrMore(unary_operators)`. -/
def pUnaryChain : Nat → Option Char → List Char →
    (List String × Option Char × List Char)
  | 0, p, s => ([], p, s)
  | fuel + 1, p, s =>
    match pUnaryOp p s with
    | none => ([], p, s)
    | some (op, p1, s1) =>
      let (more, p2, s2) := pUnaryChain fuel p1 s1
      (op :: more, p2, s2)

/-- The ordered `term` alternation. -/
def pTerm (dq : Bool) : Nat → Option Char → List Char →
    Option (PNode × Option Char × List Char)
  | 0, _, _ => none
  | fuel + 1, p, s =>
    match pParen dq fuel p s with
    | some r => some r
    | none =>
    match pCall dq fuel p s with
    | some r => some r
    | none =>
    match pStringLit dq p s with
    | some r => some r
    | none =>
    match pArray p s with
    | some r => some r
    | none =>
    match pRange p s with
    | some r => some r
    | none =>
    match pNumber p s with
    | some r => some r
    | none =>
    match pWord cellInitChar cellBodyChar p s with
    | some (tok, p', s') => some (.str tok, p', s')
    | none =>
    match pWord identInitChar identBodyChar p s with
    | some (tok, p', s') => some (.str tok, p', s')
    | none => none

/-- `parenthesized_expr <<= (lparen.suppress() + expression +
rparen.suppress())` with the `mark_parenthesized` action. -/
def pParen (dq : Bool) : Nat → Option Char → List Char →
    Option (PNode × Option Char × List Char)
  | 0, _, _ => none
  | fuel + 1, p, s =>
    match pLitCh '(' p s with
    | none => none
    | some (p1, s1) =>
      match pExpr dq fuel p1 s1 with
      | none => none
      | some (g, p2, s2) =>
        match pLitCh ')' p2 s2 with
        | none => none
        | some (p3, s3) => some (.paren g, p3, s3)

/-- `function_call = Group(identifier + lparen + Group(args_list) +
rparen)` with the `fix_function_call` action. -/
def pCall (dq : Bool) : Nat → Option Char → List Char →
    Option (PNode × Option Char × List Char)
  | 0, _, _ => none
  | fuel + 1, p, s =>
    match pWord identInitChar identBodyChar p s with
    | none => none
    | some (name, p1, s1) =>
      match pLitCh '(' p1 s1 with
      | none => none
      | some (p2, s2) =>
        let (args, p3, s3) := pArgList dq fuel p2 s2
        match pLitCh ')' p3 s3 with
        | none => none
        | some (p4, s4) => some (.call name (fixFunctionCall args), p4, s4)

/-- `args_list = Optional(DelimitedList(argument))`: total, returning no
arguments when the delimited list fails. -/
def pArgList (dq : Bool) : Nat → Option Char → List Char →
    (List PNode × Option Char × List Char)
  | 0, p, s => ([], p, s)
  | fuel + 1, p, s =>
    match pArgument dq fuel p s with
    | none => ([], p, s)
    | some (a, p1, s1) =>
      let (more, p2, s2) := pArgTail dq fuel p1 s1
      (a :: more, p2, s2)

/-- The `(delim + argument)*` tail of `DelimitedList` (delimiters
suppressed, atomic iterations). -/
def pArgTail (dq : Bool) : Nat → Option Char → List Char →
    (List PNode × Option Char × List Char)
  | 0, p, s => ([], p, s)
  | fuel + 1, p, s =>
    match pLitCh ',' p s with
    | none => ([], p, s)
    | some (p1, s1) =>
      match pArgument dq fuel p1 s1 with
      | none => ([], p, s)
      | some (a, p2, s2) =>
        let (more, p3, s3) := pArgTail dq fuel p2 s2
        (a :: more, p3, s3)

/-- `argument = expression | empty_arg` where `empty_arg` is the
non-consuming lookahead `FollowedBy(comma | rparen)` producing the
marker string. -/
def pArgument (dq : Bool) : Nat → Option Char → List Char →
    Option (PNode × Option Char × List Char)
  | 0, _, _ => none
  | fuel + 1, p, s =>
    match pExpr dq fuel p s with
    | some r => some r
    | none =>
      let (_, s') := skipPP p s
      match s' with
      | ',' :: _ => some (.str "__EMPTY__", p, s)
      | ')' :: _ => some (.str "__EMPTY__", p, s)
      | _ => none
end

/-- `FormulaParser.parse`: strip the leading `=` characters and outer
whitespace, run the grammar with `parse_all=True` (trailing whitespace
allowed, anything else a parse failure).  The result mirrors the
`ParseResults` wrapper around the expression group. -/
def runGrammar (dq : Bool) (formula : String) : Option PNode :=
  let normalized := pyStrip (formula.data.dropWhile (· = '='))
  let fuel := 4 * normalized.length + 8
  match pExpr dq fuel none normalized with
  | none => none
  | some (g, p1, s1) =>
    let (_, s2) := skipPP p1 s1
    if s2 = [] then some (.group [g]) else none

/-- The parser of `scripts/generate_readme.py` (backslash-escaped
strings). -/
def parseGR (formula : String) : Option PNode := runGrammar false formula

/-- The parser of `scripts/formula_parser.py` (doubled-quote escaped
strings). -/
def parseFP (formula : String) : Option PNode := runGrammar true formula

/-! ### Substitution engine -/

/-- Python exception classes raised by the engine.  `fuel` stands for
non-termination of the recursive expansion (Python would recurse
without bound; the entry points below receive enough fuel that it is
never produced on the inputs of the theorems). -/
inductive PyErr where
  | valueError (msg : String)
  | reError (msg : String)
  | validationError (msg : String)
  | keyError (msg : String)
  | fuel
  deriving Repr, DecidableEq

mutual
/-- Approximation of Python `repr()` for the embedded values, used only
by the cold fallback branches below that call `str()` on a container
(quote-escaping inside reprs and the ParseResults-vs-list rendering
details are elided; no theorem evaluates these branches). -/
def pyRepr : PNode → String
  | .str s => "'" ++ s ++ "'"
  | .num n => toString n
  | .num_f r => r
  | .strLit c => "('__STRING_LITERAL__', '" ++ c ++ "')"
  | .paren g => "('__PARENTHESIZED__', " ++ pyRepr g ++ ")"
  | .call n args =>
    "\x7b'function': '" ++ n ++ "', 'args': [" ++
      String.intercalate ", " (pyReprInner args) ++ "]\x7d"
  | .group items => "[" ++ String.intercalate ", " (pyReprInner items) ++ "]"
def pyReprInner : List PNode → List String
  | [] => []
  | x :: xs => pyRepr x :: pyReprInner xs
end

/-- Python `str()` on an embedded value (strings render without
quotes, containers via their repr). -/
def pyStr : PNode → String
  | .str s => s
  | .num n => toString n
  | .num_f r => r
  | t => pyRepr t

def isOctDigit (c : Char) : Bool := '0' ≤ c && c ≤ '7'

def octVal (c : Char) : Nat := c.toNat - '0'.toNat

/-- Replacement-template processing of Python `re.sub`
(`sre_parse.parse_template`) for a pattern containing no capture
groups, as used by `substitute_arguments`: backslash-free text is
literal; `BACKSLASH g<0>` inserts the whole match; group references are
errors (the pattern has no groups); octal and known letter escapes
produce control characters; unknown letter escapes and a trailing
backslash raise; a backslash before a non-alphanumeric character is
kept verbatim. -/
def expandTemplateEsc (matched : List Char)
    (go : List Char → Except PyErr (List Char)) :
    List Char → Except PyErr (List Char)
  | [] => Except.error (.reError "bad escape (end of pattern)")
  | 'g' :: r1 =>
    match r1 with
    | '<' :: r2 =>
      let name := r2.takeWhile (· ≠ '>')
      match r2.drop name.length with
      | '>' :: r3 =>
        if name = [] then Except.error (.reError "missing group name")
        else if name.all Char.isDigit then
          if digitsToNat name = 0 then do
            let t ← go r3
            Except.ok (matched ++ t)
          else Except.error (.reError "invalid group reference")
        else Except.error (.reError "unknown group name")
      | _ => Except.error (.reError "missing >, unterminated name")
    | _ => Except.error (.reError "missing <")
  | c :: r1 =>
    if c = '0' then do
      let oct := (r1.takeWhile isOctDigit).take 2
      let v := oct.foldl (fun a d => a * 8 + octVal d) 0
      let t ← go (r1.drop oct.length)
      Except.ok (Char.ofNat v :: t)
    else if c.isDigit then
      match r1 with
      | d2 :: d3 :: r2 =>
        if isOctDigit c ∧ isOctDigit d2 ∧ isOctDigit d3 then do
          let t ← go r2
          Except.ok (Char.ofNat (octVal c * 64 + octVal d2 * 8 + octVal d3) :: t)
        else Except.error (.reError "invalid group reference")
      | _ => Except.error (.reError "invalid group reference")
    else if c = 'a' then do
      let t ← go r1
      Except.ok ('\x07' :: t)
    else if c = 'b' then do
      let t ← go r1
      Except.ok ('\x08' :: t)
    else if c = 'f' then do
      let t ← go r1
      Except.ok ('\x0c' :: t)
    else if c = 'n' then do
      let t ← go r1
      Except.ok ('\n' :: t)
    else if c = 'r' then do
      let t ← go r1
      Except.ok ('\r' :: t)
    else if c = 't' then do
      let t ← go r1
      Except.ok ('\t' :: t)
    else if c = 'v' then do
      let t ← go r1
      Except.ok ('\x0b' :: t)
    else if c = '\\' then do
      let t ← go r1
      Except.ok ('\\' :: t)
    else if c.isAlpha then Except.error (.reError "bad escape")
    else do
      let t ← go r1
      Except.ok ('\\' :: c :: t)

def expandTemplateGo (matched : List Char) : Nat → List Char → Except PyErr (List Char)
  | _, [] => Except.ok []
  | 0, _ => Except.ok []
  | fuelN + 1, c0 :: rest =>
    if c0 = '\\' then expandTemplateEsc matched (expandTemplateGo matched fuelN) rest
    else do
      let t ← expandTemplateGo matched fuelN rest
      Except.ok (c0 :: t)

/-- Entry point supplying the fuel (one unit per template step). -/
def expandTemplate (matched repl : List Char) : Except PyErr (List Char) :=
  expandTemplateGo matched (repl.length + 1) repl

/-- Word predicate lifted to an optional character (ends of the string
behave as non-word positions for `\b`). -/
def isWordOpt : Option Char → Bool
  | some c => isWordChar c
  | none => false

/-- A `\b` boundary holds between two (optional) characters when
exactly one side is a word character. -/
def bdry (a b : Option Char) : Bool := isWordOpt a != isWordOpt b

/-- The scanning loop of `re.sub(r"\b" + re.escape(name) + r"\b", ins,
s)` for a nonempty literal `name`: leftmost matches, never rescanning
the inserted text within the same call. -/
def wordSubGo (n0 : Char) (nrest ins : List Char) : Nat → Option Char →
    List Char → List Char
  | _, _, [] => []
  | 0, _, s => s
  | fuelN + 1, p, c :: rest =>
    if (n0 :: nrest).isPrefixOf (c :: rest) ∧ bdry p (some n0) ∧
        bdry (some (nrest.getLastD n0)) ((c :: rest).drop (nrest.length + 1)).head? then
      ins ++ wordSubGo n0 nrest ins fuelN (some (nrest.getLastD n0))
        ((c :: rest).drop (nrest.length + 1))
    else c :: wordSubGo n0 nrest ins fuelN (some c) rest

/-- The pure replacement part of the `re.sub` call: every whole-word
occurrence of the nonempty literal `name` is replaced by `ins`
verbatim. -/
def wordSub (name ins s : List Char) : List Char :=
  match name with
  | [] => s
  | n0 :: nrest => wordSubGo n0 nrest ins (s.length + 1) none s

/-- `re.sub(r"\b" + re.escape(name) + r"\b", repl, s)`.  The template
is processed once (raising even when nothing matches); every match of
the literal `name` between word boundaries is replaced by the expansion
(in which `g<0>` refers to the matched text, which is always `name`
itself).  Parameter names in the engine are nonempty; Python's
behaviour on an empty name (a pattern matching empty strings) is not
modelled. -/
def reSubWord (name repl s : List Char) : Except PyErr (List Char) := do
  let ins ← expandTemplate name repl
  Except.ok (wordSub name ins s)

/-- A parameter record; the engine reads only its `name` field. -/
structure Param where
  name : String
  deriving Repr, DecidableEq

/-- The local `stringify_item` of `substitute_arguments`.  A
parenthesized marker recurses on its inner expression converted to a
plain list, for which `stringify_item` has no case and falls through to
`str()`; the dict and `ParseResults` call cases both reduce to
`reconstruct_call`; a bare group likewise falls through to `str()`. -/
def stringifyItem : PNode → String
  | .str s => if s = "__EMPTY__" then "" else s
  | .paren g => "(" ++ pyStr g ++ ")"
  | .strLit c => "\"" ++ c ++ "\""
  | .call n args => reconstructCall n args
  | .num n => toString n
  | .num_f r => r
  | .group items => pyStr (.group items)

/-- The per-argument stringification at the top of
`substitute_arguments` (lines turning `arg` into `arg_str`).  Top-level
arguments in the engine are groups, strings or marker tuples; the
remaining constructors fall into the final `str(arg)` branch. -/
def argString : PNode → String
  | .str s => if s = "__EMPTY__" then "" else s
  | .strLit c => "\"" ++ c ++ "\""
  | .num n => toString n
  | .num_f r => r
  | .group items => String.intercalate " " (items.map stringifyItem)
  | .paren g => pyStr (.paren g)
  | .call n args => pyStr (.call n args)

/-- Port of `substitute_arguments`: the parameter count is checked,
then each parameter is substituted in declaration order by a separate
`re.sub` pass over the accumulated result. -/
def substituteArguments (formulaText : String) (params : List Param)
    (args : List PNode) : Except PyErr String :=
  if params.length ≠ args.length then
    Except.error (.valueError
      (s!"Parameter count mismatch: expected {params.length}, got {args.length}"))
  else
    go params args formulaText.data
where
  go : List Param → List PNode → List Char → Except PyErr String
    | [], _, acc => Except.ok ⟨acc⟩
    | _, [], acc => Except.ok ⟨acc⟩
    | param :: ps, arg :: as_, acc => do
      let acc2 ← reSubWord param.name.data (argString arg).data acc
      go ps as_ acc2

/-! ### Cycle detection -/

abbrev Graph := List (String × List String)

def lookupColor (colors : List (String × Nat)) (n : String) : Option Nat :=
  (colors.find? (·.1 = n)).map (·.2)

def setColor (colors : List (String × Nat)) (n : String) (c : Nat) :
    List (String × Nat) :=
  colors.map (fun p => if p.1 = n then (p.1, c) else p)

mutual
/-- The recursive `dfs` of `detect_cycles`.  Colors: 0 = white,
1 = gray, 2 = black.  A gray neighbour records the cycle as the path
slice from its first occurrence plus the closing edge; a white
neighbour is recursed into with a copy of the path; the node turns
black after all neighbours.  Looking up a colour for a node absent from
the graph raises `KeyError` in Python. -/
def dfsCycles (graph : Graph) :
    Nat → String → List String → List (String × Nat) → List String →
    Except PyErr (List (String × Nat) × List String)
  | 0, _, _, _, _ => Except.error .fuel
  | fuelN + 1, node, path, colors, cycles => do
    let colors := setColor colors node 1
    let path := path ++ [node]
    let neighbors := ((graph.find? (·.1 = node)).map (·.2)).getD []
    let (colors, cycles) ← dfsNbrs graph fuelN path colors cycles neighbors
    Except.ok (setColor colors node 2, cycles)

/-- The `for neighbor in graph.get(node, [])` loop of `dfs`. -/
def dfsNbrs (graph : Graph) :
    Nat → List String → List (String × Nat) → List String → List String →
    Except PyErr (List (String × Nat) × List String)
  | _, _, colors, cycles, [] => Except.ok (colors, cycles)
  | 0, _, _, _, _ => Except.error .fuel
  | fuelN + 1, path, colors, cycles, nb :: rest => do
    match lookupColor colors nb with
    | none => Except.error (.keyError nb)
    | some c =>
      if c = 1 then
        match path.findIdx? (· = nb) with
        | none => Except.error (.valueError (nb ++ " is not in list"))
        | some i =>
          let cycle := path.drop i ++ [nb]
          dfsNbrs graph fuelN path colors
            (cycles ++ [String.intercalate " → " cycle]) rest
      else if c = 0 then do
        let (colors, cycles) ← dfsCycles graph fuelN nb path colors cycles
        dfsNbrs graph fuelN path colors cycles rest
      else
        dfsNbrs graph fuelN path colors cycles rest
end

/-- Port of `detect_cycles`. -/
def detectCycles (graph : Graph) : Except PyErr (List String) := do
  let colors := graph.map (fun p => (p.1, 0))
  let fuelD := 2 * (graph.length + (graph.map (·.2.length)).sum) + 2
  let (_, cycles) ← go fuelD colors [] (graph.map (·.1))
  Except.ok cycles
where
  go (fuelD : Nat) : List (String × Nat) → List String → List String →
      Except PyErr (List (String × Nat) × List String)
    | colors, cycles, [] => Except.ok (colors, cycles)
    | colors, cycles, node :: rest => do
      if lookupColor colors node = some 0 then do
        let (colors, cycles) ← dfsCycles graph fuelD node [] colors cycles
        go fuelD colors cycles rest
      else
        go fuelD colors cycles rest

/-! ### Comments, the expander and the dependency graph -/

/-- Scan for the closing `*/` of a block comment; returns the input
after it, or `none` when the comment is unterminated. -/
def afterBlockClose : List Char → Option (List Char)
  | [] => none
  | c :: r =>
    if c = '*' ∧ r.head? = some '/' then some r.tail else afterBlockClose r

theorem afterBlockClose_length {l r : List Char}
    (h : afterBlockClose l = some r) : r.length < l.length := by
  induction l with
  | nil => simp [afterBlockClose] at h
  | cons c cs ih =>
    simp only [afterBlockClose] at h
    split at h
    · rename_i hc
      obtain ⟨-, hh⟩ := hc
      cases cs with
      | nil => simp at hh
      | cons d ds =>
        simp only [Option.some.injEq] at h
        simp [← h]
        omega
    · have := ih h
      simp
      omega

/-- First pass of `strip_comments`:
`re.sub(BLOCKCOMMENT_REGEX, "", formula, flags=re.DOTALL)` with a
non-greedy body — every block comment up to its first closing `*/` is
removed; an unterminated opener is left in place. -/
def stripBlockGo : Nat → List Char → List Char
  | _, [] => []
  | 0, s => s
  | fuelN + 1, '/' :: '*' :: rest =>
    match afterBlockClose rest with
    | some rest2 => stripBlockGo fuelN rest2
    | none => '/' :: stripBlockGo fuelN ('*' :: rest)
  | fuelN + 1, c :: rest => c :: stripBlockGo fuelN rest

def stripBlock (s : List Char) : List Char :=
  stripBlockGo (s.length + 1) s

/-- Second pass of `strip_comments`: `//` up to (excluding) the next
newline is removed. -/
def stripLineGo : Nat → List Char → List Char
  | _, [] => []
  | 0, s => s
  | fuelN + 1, '/' :: '/' :: rest => stripLineGo fuelN (rest.dropWhile (· ≠ '\n'))
  | fuelN + 1, c :: rest => c :: stripLineGo fuelN rest

def stripLine (s : List Char) : List Char :=
  stripLineGo (s.length + 1) s

/-- Port of `strip_comments` (identical in both source files). -/
def stripComments (formula : String) : String :=
  ⟨stripLine (stripBlock formula.data)⟩

/-- A formula record as the engine reads it: `name`, `parameters` and
the body text `formula`. -/
structure Formula where
  name : String
  parameters : List Param
  formula : String
  deriving Repr

/-- The `expanded_cache` dict: insertion shadows, lookup takes the most
recent binding. -/
abbrev Cache := List (String × String)

def cacheFind (c : Cache) (n : String) : Option String :=
  (c.find? (·.1 = n)).map (·.2)

def cacheInsert (c : Cache) (n v : String) : Cache := (n, v) :: c

/-- `text.lstrip("=").strip()`. -/
def lstripEqStrip (s : String) : String :=
  ⟨pyStrip (s.data.dropWhile (· = '='))⟩

def countChar (ch : Char) (s : String) : Nat := s.data.count ch

/-- The `formula_starters` of the `=`-prefix heuristic in
`expand_formula`. -/
def formulaStarters : List String :=
  ["LET(", "LAMBDA(", "BYROW(", "BYCOL(", "MAKEARRAY(", "FILTER(", "DENSIFY("]

mutual
/-- Port of `expand_argument`.  The flag `raw` tracks whether the
argument lives inside a `__PARENTHESIZED__` marker, where
`as_dict`-conversion never reached: there a call node takes the
`ParseResults` branch of the Python code, which substitutes the callee
with the call's argument nodes directly, while a converted call (dict
branch) first expands each argument to a string. -/
def expandArgument (allF : List Formula) :
    Nat → Cache → Bool → PNode → Except PyErr (Cache × String)
  | 0, _, _, _ => Except.error .fuel
  | fuelN + 1, cache, raw, arg =>
    match arg with
    | .str s => Except.ok (cache, s)
    | .paren g => do
      let (c1, inner) ← expandArgument allF fuelN cache true g
      Except.ok (c1, "(" ++ inner ++ ")")
    | .strLit c => Except.ok (cache, "\"" ++ c ++ "\"")
    | .num n => Except.ok (cache, toString n)
    | .num_f r => Except.ok (cache, r)
    | .group items => do
      let (c1, parts) ← expandArgList allF fuelN cache raw items
      Except.ok (c1, String.intercalate " " parts)
    | .call fn args =>
      match allF.find? (·.name = fn) with
      | none => Except.ok (cache, reconstructCall fn args)
      | some fdef =>
        if raw then do
          -- ParseResults branch: substitute the raw argument nodes
          let (c1, fe) ← expandFormula allF fuelN cache fdef
          let sub ← substituteArguments (lstripEqStrip fe) fdef.parameters args
          Except.ok (c1, "(" ++ sub ++ ")")
        else do
          -- dict branch: expand each argument to a string first
          let (c1, fe) ← expandFormula allF fuelN cache fdef
          let (c2, eargs) ← expandArgList allF fuelN c1 raw args
          let sub ← substituteArguments (lstripEqStrip fe) fdef.parameters
            (eargs.map PNode.str)
          Except.ok (c2, "(" ++ sub ++ ")")

/-- Thread the cache through `expand_argument` over a list
(the list comprehensions of the source). -/
def expandArgList (allF : List Formula) :
    Nat → Cache → Bool → List PNode → Except PyErr (Cache × List String)
  | 0, _, _, _ => Except.error .fuel
  | fuelN + 1, cache, raw, args =>
    match args with
    | [] => Except.ok (cache, [])
    | a :: rest => do
      let (c1, s1) ← expandArgument allF fuelN cache raw a
      let (c2, srest) ← expandArgList allF fuelN c1 raw rest
      Except.ok (c2, s1 :: srest)

/-- The call-site loop of `expand_formula` (`for call in
top_level_calls`), returning the final cache, rewritten text and the
`call_text` of the last processed call (a loop variable read by the
unwrap heuristic afterwards). -/
def expandCallLoop (allF : List Formula) :
    Nat → Cache → String → String → List CallSite →
    Except PyErr (Cache × String × String)
  | 0, _, _, _, _ => Except.error .fuel
  | fuelN + 1, cache, result, lastCT, [] => Except.ok (cache, result, lastCT)
  | fuelN + 1, cache, result, _, call :: rest =>
    match allF.find? (·.name = call.name) with
    | none => Except.error (.keyError call.name)
    | some fdef => do
      let (c1, eargs) ← expandArgList allF fuelN cache false call.args
      let (c2, fe) ← expandFormula allF fuelN c1 fdef
      let sub ← substituteArguments (lstripEqStrip fe) fdef.parameters
        (eargs.map PNode.str)
      let callText := reconstructCall call.name call.args
      let result2 := strReplace result callText ("(" ++ sub ++ ")")
      expandCallLoop allF fuelN c2 result2 callText rest

/-- Port of `expand_formula`. -/
def expandFormula (allF : List Formula) :
    Nat → Cache → Formula → Except PyErr (Cache × String)
  | 0, _, _ => Except.error .fuel
  | fuelN + 1, cache, f =>
    match cacheFind cache f.name with
    | some v => Except.ok (cache, v)
    | none =>
      let formulaText : String := ⟨pyStrip (stripComments f.formula).data⟩
      let named := allF.map (·.name)
      match parseGR formulaText with
      | none =>
        -- `except ParseException`: cache and return the text unchanged
        Except.ok (cacheInsert cache f.name formulaText, formulaText)
      | some ast =>
        let calls := extractFunctionCalls ast named
        if calls.isEmpty then
          Except.ok (cacheInsert cache f.name formulaText, formulaText)
        else do
          let (c1, result0, lastCT) ←
            expandCallLoop allF fuelN cache formulaText "" calls
          let result1 :=
            if strStartsWith result0 "(" ∧ strEndsWith result0 ")" ∧
                countChar '(' result0 = countChar ')' result0 ∧
                formulaText = lastCT then
              (⟨result0.data.drop 1 |>.dropLast⟩ : String)
            else result0
          let result2 :=
            if ¬ strStartsWith result1 "=" ∧
                formulaStarters.any (strStartsWith result1 ·) then
              "=" ++ result1
            else result1
          if lstripEqStrip result2 = lstripEqStrip formulaText then
            let names := ((calls.map (·.name)).dedup).mergeSort (· ≤ ·)
            Except.error (.validationError
              (f.name ++ ": Formula expansion failed - calls to " ++
                String.intercalate ", " names ++ " were not expanded."))
          else
            Except.ok (cacheInsert c1 f.name result2, result2)
end

/-- First-occurrence deduplication standing in for Python's
`list({...})` — the set's iteration order is unspecified in Python; the
theorems below depend only on membership and emptiness of the result. -/
def dedupFirst (l : List String) : List String :=
  l.foldl (fun acc n => if n ∈ acc then acc else acc ++ [n]) []

/-- Port of `build_dependency_graph`: each formula's body is parsed
as-is (no comment stripping here); a `ParseException` yields no
dependencies. -/
def buildDependencyGraph (formulas : List Formula) : Graph :=
  let named := formulas.map (·.name)
  formulas.map (fun f =>
    match parseGR f.formula with
    | none => (f.name, [])
    | some ast =>
      (f.name, dedupFirst ((extractFunctionCalls ast named).map (·.name))))

/-! ### Support for the theorems -/

/-- Membership in the stable insertion step. -/
theorem mem_insertDesc {y c : CallSite} {l : List CallSite} :
    y ∈ insertDesc c l ↔ y = c ∨ y ∈ l := by
  induction l with
  | nil => simp [insertDesc]
  | cons x xs ih =>
    by_cases h : x.depth < c.depth
    · simp [insertDesc, h]
    · simp [insertDesc, h, ih]
      tauto

/-- Membership is preserved by the stable sort. -/
theorem mem_sortByDepthDesc {s : CallSite} {l : List CallSite} :
    s ∈ sortByDepthDesc l ↔ s ∈ l := by
  suffices h : ∀ (l acc : List CallSite) (s : CallSite),
      s ∈ l.foldl (fun acc c => insertDesc c acc) acc ↔ s ∈ acc ∨ s ∈ l by
    have := h l [] s
    simpa [sortByDepthDesc] using this
  intro l
  induction l with
  | nil => simp
  | cons x xs ih =>
    intro acc s
    simp only [List.foldl_cons, ih, mem_insertDesc]
    simp [List.mem_cons]
    tauto

/-- The descending-depth relation the extractor's output is sorted by. -/
def depthGE (a b : CallSite) : Prop := b.depth ≤ a.depth

theorem pairwise_insertDesc {c : CallSite} {l : List CallSite}
    (h : l.Pairwise depthGE) : (insertDesc c l).Pairwise depthGE := by
  induction l with
  | nil => simp [insertDesc, depthGE]
  | cons x xs ih =>
    rcases List.pairwise_cons.mp h with ⟨hx, hxs⟩
    by_cases hd : x.depth < c.depth
    · simp only [insertDesc, if_pos hd]
      refine List.pairwise_cons.mpr ⟨?_, h⟩
      intro y hy
      rcases List.mem_cons.mp hy with rfl | hy
      · exact Nat.le_of_lt hd
      · exact Nat.le_trans (hx y hy) (Nat.le_of_lt hd)
    · simp only [insertDesc, if_neg hd]
      refine List.pairwise_cons.mpr ⟨?_, ih hxs⟩
      intro y hy
      rcases mem_insertDesc.mp hy with rfl | hy
      · exact Nat.le_of_not_lt hd
      · exact hx y hy

/-- The output of the stable sort is sorted by depth, descending. -/
theorem pairwise_sortByDepthDesc (l : List CallSite) :
    (sortByDepthDesc l).Pairwise depthGE := by
  suffices h : ∀ (l acc : List CallSite), acc.Pairwise depthGE →
      (l.foldl (fun acc c => insertDesc c acc) acc).Pairwise depthGE by
    exact h l [] (by simp)
  intro l
  induction l with
  | nil => exact fun acc h => h
  | cons x xs ih =>
    intro acc hacc
    exact ih _ (pairwise_insertDesc hacc)

/-- An occurrence of a function call inside an embedded parse tree:
`OccursAt t d nm args` holds when a `call nm args` node sits in `t`
below exactly `d` enclosing `call` nodes (of any name — known or
builtin), crossing groups, parenthesized markers and argument lists
without increasing the count. -/
inductive OccursAt : PNode → Nat → String → List PNode → Prop where
  | self (n : String) (args : List PNode) : OccursAt (.call n args) 0 n args
  | inArg {a : PNode} {args : List PNode} {d : Nat} {nm : String}
      {as2 : List PNode} (cn : String) (ha : a ∈ args)
      (h : OccursAt a d nm as2) : OccursAt (.call cn args) (d + 1) nm as2
  | inGroup {x : PNode} {items : List PNode} {d : Nat} {nm : String}
      {as2 : List PNode} (hx : x ∈ items) (h : OccursAt x d nm as2) :
      OccursAt (.group items) d nm as2
  | inParen {inner : PNode} {d : Nat} {nm : String} {as2 : List PNode}
      (h : OccursAt inner d nm as2) : OccursAt (.paren inner) d nm as2

mutual
/-- The walker records exactly the known-name occurrences, at depth
`d` plus the occurrence's nesting count. -/
theorem walkNode_occurs (named : List String) (t : PNode) :
    ∀ (d : Nat) (s : CallSite), s ∈ walkNode named t d ↔
      ∃ d0 nm args, OccursAt t d0 nm args ∧ nm ∈ named ∧ s = ⟨nm, args, d + d0⟩ := by
  match t with
  | .call n args =>
    intro d s
    have hrec := walkList_occurs named args
    constructor
    · intro hs
      rw [walkNode] at hs
      rcases List.mem_append.mp hs with hs | hs
      · by_cases hn : n ∈ named
        · rw [if_pos hn] at hs
          simp at hs
          exact ⟨0, n, args, .self n args, hn, by simp [hs]⟩
        · rw [if_neg hn] at hs
          simp at hs
      · rcases (hrec (d + 1) s).mp hs with ⟨d0, nm, as2, ⟨a, ha, hocc⟩, hnm, heq⟩
        exact ⟨d0 + 1, nm, as2, .inArg n ha hocc, hnm, by
          rw [heq]
          have : d + 1 + d0 = d + (d0 + 1) := by omega
          rw [this]⟩
    · rintro ⟨d0, nm, as2, hocc, hnm, rfl⟩
      rw [walkNode]
      cases hocc with
      | self =>
        rw [if_pos hnm]
        simp
      | inArg cn ha hocc =>
        rename_i a1 d1
        refine List.mem_append.mpr (Or.inr ?_)
        refine (hrec (d + 1) _).mpr ⟨d1, nm, as2, ⟨a1, ha, hocc⟩, hnm, ?_⟩
        have : d + (d1 + 1) = d + 1 + d1 := by omega
        rw [this]
  | .group items =>
    intro d s
    have hrec := walkList_occurs named items
    constructor
    · intro hs
      rw [walkNode] at hs
      rcases (hrec d s).mp hs with ⟨d0, nm, as2, ⟨x, hx, hocc⟩, hnm, heq⟩
      exact ⟨d0, nm, as2, .inGroup hx hocc, hnm, heq⟩
    · rintro ⟨d0, nm, as2, hocc, hnm, rfl⟩
      cases hocc with
      | inGroup hx hocc =>
        rw [walkNode]
        exact (hrec d _).mpr ⟨d0, nm, as2, ⟨_, hx, hocc⟩, hnm, rfl⟩
  | .paren inner =>
    intro d s
    have hrec := walkNode_occurs named inner
    constructor
    · intro hs
      rw [walkNode] at hs
      rcases (hrec d s).mp hs with ⟨d0, nm, as2, hocc, hnm, heq⟩
      exact ⟨d0, nm, as2, .inParen hocc, hnm, heq⟩
    · rintro ⟨d0, nm, as2, hocc, hnm, rfl⟩
      cases hocc with
      | inParen hocc =>
        rw [walkNode]
        exact (hrec d _).mpr ⟨d0, nm, as2, hocc, hnm, rfl⟩
  | .str s0 =>
    intro d s
    rw [walkNode]
    simp only [List.not_mem_nil, false_iff]
    rintro ⟨d0, nm, as2, hocc, -, -⟩
    cases hocc
  | .num n0 =>
    intro d s
    rw [walkNode]
    simp only [List.not_mem_nil, false_iff]
    rintro ⟨d0, nm, as2, hocc, -, -⟩
    cases hocc
  | .num_f r0 =>
    intro d s
    rw [walkNode]
    simp only [List.not_mem_nil, false_iff]
    rintro ⟨d0, nm, as2, hocc, -, -⟩
    cases hocc
  | .strLit c0 =>
    intro d s
    rw [walkNode]
    simp only [List.not_mem_nil, false_iff]
    rintro ⟨d0, nm, as2, hocc, -, -⟩
    cases hocc

theorem walkList_occurs (named : List String) (l : List PNode) :
    ∀ (d : Nat) (s : CallSite), s ∈ walkList named l d ↔
      ∃ d0 nm args, (∃ x ∈ l, OccursAt x d0 nm args) ∧ nm ∈ named ∧
        s = ⟨nm, args, d + d0⟩ := by
  match l with
  | [] =>
    intro d s
    rw [walkList]
    simp
  | x :: xs =>
    intro d s
    have hx := walkNode_occurs named x
    have hxs := walkList_occurs named xs
    rw [walkList]
    constructor
    · intro hs
      rcases List.mem_append.mp hs with hs | hs
      · rcases (hx d s).mp hs with ⟨d0, nm, as2, hocc, hnm, heq⟩
        exact ⟨d0, nm, as2, ⟨x, by simp, hocc⟩, hnm, heq⟩
      · rcases (hxs d s).mp hs with ⟨d0, nm, as2, ⟨y, hy, hocc⟩, hnm, heq⟩
        exact ⟨d0, nm, as2, ⟨y, by simp [hy], hocc⟩, hnm, heq⟩
    · rintro ⟨d0, nm, as2, ⟨y, hy, hocc⟩, hnm, rfl⟩
      rcases List.mem_cons.mp hy with rfl | hy
      · exact List.mem_append.mpr (Or.inl ((hx d _).mpr ⟨d0, nm, as2, hocc, hnm, rfl⟩))
      · exact List.mem_append.mpr
          (Or.inr ((hxs d _).mpr ⟨d0, nm, as2, ⟨y, hy, hocc⟩, hnm, rfl⟩))
end

/-- The first parameter (in declaration order) whose name matches as a
whole token at the current position, paired with its argument text. -/
def simFind (pairs : List (Char × List Char × List Char)) (p : Option Char)
    (s : List Char) : Option (Char × List Char × List Char) :=
  pairs.find? (fun q =>
    (q.1 :: q.2.1).isPrefixOf s ∧ bdry p (some q.1) ∧
      bdry (some (q.2.1.getLastD q.1)) (s.drop (q.2.1.length + 1)).head?)

def simSubGo (pairs : List (Char × List Char × List Char)) :
    Nat → Option Char → List Char → List Char
  | _, _, [] => []
  | 0, _, s => s
  | fuelN + 1, p, c :: rest =>
    match simFind pairs p (c :: rest) with
    | some q =>
      q.2.2 ++ simSubGo pairs fuelN (some (q.2.1.getLastD q.1))
        ((c :: rest).drop (q.2.1.length + 1))
    | none => c :: simSubGo pairs fuelN (some c) rest

/-- Modelled from the spec: "implementations must substitute on
independent passes keyed by position, not compound string rewriting
that could re-match already-substituted text" — realised as one
simultaneous left-to-right scan of the original body in which each
whole-token parameter occurrence is replaced by the corresponding
argument text and inserted text is never re-scanned.  (Parameters with
empty names are skipped, matching `wordSub`'s guard.) -/
def independentSub (body : String) (params : List String)
    (args : List String) : String :=
  let pairs := (params.zip args).filterMap (fun q =>
    match q.1.data with
    | [] => none
    | n0 :: nrest => some (n0, nrest, q.2.data))
  ⟨simSubGo pairs (body.data.length + 1) none body.data⟩

/-! ### Round-trip support (claim C1) -/

/-- Delete every whitespace character (the round-trip comparison is
modulo whitespace). -/
def fws (l : List Char) : List Char := l.filter (fun c => !isPyWS c)

def stripWS (s : String) : String := ⟨fws s.data⟩

/-- Concatenation of the rendered items of a group (the group's actual
rendering inserts single spaces, which `fws` erases). -/
def rlist (items : List PNode) : List Char :=
  ((stringifyList items).map String.data).flatten

theorem fws_append (a b : List Char) : fws (a ++ b) = fws a ++ fws b := by
  simp [fws]

theorem isPyWS_of_isPPWS {c : Char} (h : isPPWS c = true) : isPyWS c = true := by
  simp only [isPPWS, Bool.or_eq_true, decide_eq_true_eq] at h
  rcases h with (h | h) | h <;> simp [isPyWS, h]

theorem fws_of_ppws {l : List Char} (h : ∀ c ∈ l, isPPWS c = true) :
    fws l = [] := by
  simp only [fws, List.filter_eq_nil_iff]
  intro c hc
  simp [isPyWS_of_isPPWS (h c hc)]

/-- The leading pyparsing-whitespace prefix of `s` is erased by `fws`. -/
theorem ppws_split (s : List Char) :
    s = s.takeWhile isPPWS ++ s.dropWhile isPPWS ∧
      fws (s.takeWhile isPPWS) = [] :=
  ⟨(List.takeWhile_append_dropWhile _ _).symm,
   fws_of_ppws (fun _ hc => List.mem_takeWhile_imp hc)⟩

theorem pWord_split {init body : Char → Bool} {p : Option Char}
    {s : List Char} {tok : String} {p2 : Option Char} {rest : List Char}
    (h : pWord init body p s = some (tok, p2, rest)) :
    ∃ ws c bodyChars, s = ws ++ (c :: bodyChars) ++ rest ∧ fws ws = [] ∧
      tok = ⟨c :: bodyChars⟩ ∧ init c = true := by
  simp only [pWord, skipPP] at h
  obtain ⟨hsplit, hws⟩ := ppws_split s
  split at h
  · exact absurd h (by simp)
  · rename_i c r heq
    rw [heq] at hsplit
    by_cases hc : init c = true
    · rw [if_pos hc] at h
      simp only [Option.some.injEq, Prod.mk.injEq] at h
      refine ⟨s.takeWhile isPPWS, c, r.takeWhile body, ?_, hws, h.1.symm, hc⟩
      conv_lhs => rw [hsplit]
      rw [← h.2.2]
      simp
    · rw [if_neg hc] at h
      exact absurd h (by simp)

theorem pLitCh_split {ch : Char} {p : Option Char} {s : List Char}
    {p2 : Option Char} {rest : List Char}
    (h : pLitCh ch p s = some (p2, rest)) :
    ∃ ws, s = ws ++ ch :: rest ∧ fws ws = [] := by
  simp only [pLitCh, skipPP] at h
  obtain ⟨hsplit, hws⟩ := ppws_split s
  split at h
  · rename_i c r heq
    rw [heq] at hsplit
    by_cases hc : c = ch
    · rw [if_pos hc] at h
      simp only [Option.some.injEq, Prod.mk.injEq] at h
      refine ⟨s.takeWhile isPPWS, ?_, hws⟩
      conv_lhs => rw [hsplit]
      rw [hc, h.2]
    · rw [if_neg hc] at h
      exact absurd h (by simp)
  · exact absurd h (by simp)

theorem pBasicOp_split {p : Option Char} {s : List Char} {op : String}
    {p2 : Option Char} {rest : List Char}
    (h : pBasicOp p s = some (op, p2, rest)) :
    (op = "<>" ∨ op = "<=" ∨ op = ">=" ∨ op = "+" ∨ op = "-" ∨ op = "*" ∨
      op = "/" ∨ op = "^" ∨ op = "&" ∨ op = "=" ∨ op = "<" ∨ op = ">") ∧
      ∃ ws, s = ws ++ op.data ++ rest ∧ fws ws = [] := by
  simp only [pBasicOp, skipPP] at h
  obtain ⟨hsplit, hws⟩ := ppws_split s
  split at h
  · exact absurd h (by simp)
  · rename_i c r heq
    rw [heq] at hsplit
    by_cases h1 : c = '<' ∧ r.head? = some '>'
    · rw [if_pos h1] at h
      simp only [Option.some.injEq, Prod.mk.injEq] at h
      obtain ⟨hop, _, hrest⟩ := h
      rcases r with _ | ⟨d, t⟩
      · exact absurd h1.2 (by simp)
      · simp only [List.head?_cons, Option.some.injEq] at h1
        obtain ⟨hc1, hd1⟩ := h1
        subst hc1
        subst hd1
        simp only [List.tail_cons] at hrest
        subst hrest
        subst hop
        refine ⟨by decide, s.takeWhile isPPWS, ?_, hws⟩
        conv_lhs => rw [hsplit]
        have hd : ("<>" : String).data = ['<', '>'] := rfl
        rw [hd]
        simp
    · rw [if_neg h1] at h
      by_cases h2 : c = '<' ∧ r.head? = some '='
      · rw [if_pos h2] at h
        simp only [Option.some.injEq, Prod.mk.injEq] at h
        obtain ⟨hop, _, hrest⟩ := h
        rcases r with _ | ⟨d, t⟩
        · exact absurd h2.2 (by simp)
        · simp only [List.head?_cons, Option.some.injEq] at h2
          obtain ⟨hc1, hd1⟩ := h2
          subst hc1
          subst hd1
          simp only [List.tail_cons] at hrest
          subst hrest
          subst hop
          refine ⟨by decide, s.takeWhile isPPWS, ?_, hws⟩
          conv_lhs => rw [hsplit]
          have hd : ("<=" : String).data = ['<', '='] := rfl
          rw [hd]
          simp
      · rw [if_neg h2] at h
        by_cases h3 : c = '>' ∧ r.head? = some '='
        · rw [if_pos h3] at h
          simp only [Option.some.injEq, Prod.mk.injEq] at h
          obtain ⟨hop, _, hrest⟩ := h
          rcases r with _ | ⟨d, t⟩
          · exact absurd h3.2 (by simp)
          · simp only [List.head?_cons, Option.some.injEq] at h3
            obtain ⟨hc1, hd1⟩ := h3
            subst hc1
            subst hd1
            simp only [List.tail_cons] at hrest
            subst hrest
            subst hop
            refine ⟨by decide, s.takeWhile isPPWS, ?_, hws⟩
            conv_lhs => rw [hsplit]
            have hd : (">=" : String).data = ['>', '='] := rfl
            rw [hd]
            simp
        · rw [if_neg h3] at h
          by_cases h4 : c = '+' ∨ c = '-' ∨ c = '*' ∨ c = '/' ∨ c = '^' ∨
              c = '&' ∨ c = '=' ∨ c = '<' ∨ c = '>'
          · rw [if_pos h4] at h
            simp only [Option.some.injEq, Prod.mk.injEq] at h
            obtain ⟨hop, _, hrest⟩ := h
            subst hrest
            subst hop
            constructor
            · rcases h4 with hc | hc | hc | hc | hc | hc | hc | hc | hc <;>
                subst hc <;> decide
            · refine ⟨s.takeWhile isPPWS, ?_, hws⟩
              conv_lhs => rw [hsplit]
              have hd : (String.mk [c]).data = [c] := rfl
              rw [hd]
              simp
          · rw [if_neg h4] at h
            exact absurd h (by simp)

theorem pCaselessKeyword_name {kw : List Char} {p : Option Char}
    {s : List Char} {op : String} {p2 : Option Char} {rest : List Char}
    (h : pCaselessKeyword kw p s = some (op, p2, rest)) : op = ⟨kw⟩ := by
  simp only [pCaselessKeyword] at h
  split at h
  · simp only [Option.some.injEq, Prod.mk.injEq] at h
    exact h.1.symm
  · exact absurd h (by simp)

/-- The operators recognizer returns either a canonical `AND`/`OR`
keyword or one of the twelve symbolic operators consumed verbatim. -/
theorem pOperators_split {p : Option Char} {s : List Char} {op : String}
    {p2 : Option Char} {rest : List Char}
    (h : pOperators p s = some (op, p2, rest)) :
    (op = "AND" ∨ op = "OR") ∨
      ((op = "<>" ∨ op = "<=" ∨ op = ">=" ∨ op = "+" ∨ op = "-" ∨ op = "*" ∨
        op = "/" ∨ op = "^" ∨ op = "&" ∨ op = "=" ∨ op = "<" ∨ op = ">") ∧
        ∃ ws, s = ws ++ op.data ++ rest ∧ fws ws = []) := by
  rw [pOperators] at h
  rcases h1 : pCaselessKeyword ['A', 'N', 'D'] p s with _ | r <;> rw [h1] at h
  · rcases h2 : pCaselessKeyword ['O', 'R'] p s with _ | r2 <;> rw [h2] at h
    · exact Or.inr (pBasicOp_split h)
    · cases h
      exact Or.inl (Or.inr (pCaselessKeyword_name h2))
  · cases h
    exact Or.inl (Or.inl (pCaselessKeyword_name h1))

mutual
/-- Scope of the amended round-trip statement: a parse tree is *clean*
when it contains no string literals (the generate_readme parser removes
backslash escapes without re-adding them), no numeric literals (Python
reformats them through `int()`/`float()`), no `AND`/`OR` operator items
(the parser returns the canonical upper-case keyword), and no
`__EMPTY__` item originating from source text (the serializer renders it
as the empty string).  A bare `__EMPTY__` marker in *argument* position
is the parser's encoding of a genuinely elided argument — it consumed no
source text — and is therefore allowed. -/
def cleanNode : PNode → Bool
  | .str s => !(s = "AND" ∨ s = "OR" ∨ s = "__EMPTY__" : Bool)
  | .num _ => false
  | .num_f _ => false
  | .strLit _ => false
  | .paren g => cleanNode g
  | .call _ args => cleanArgs args
  | .group items => cleanItems items
def cleanItems : List PNode → Bool
  | [] => true
  | x :: xs => cleanNode x && cleanItems xs
def cleanArgs : List PNode → Bool
  | [] => true
  | .str s :: rest => (s = "__EMPTY__" : Bool) && cleanArgs rest
  | a :: rest => cleanNode a && cleanArgs rest
end

/-- Argument-position cleanness (the inlined per-argument test of
`cleanArgs`). -/
def cleanArg : PNode → Bool
  | .str s => (s = "__EMPTY__" : Bool)
  | a => cleanNode a

theorem cleanArgs_cons (a : PNode) (rest : List PNode) :
    cleanArgs (a :: rest) = (cleanArg a && cleanArgs rest) := by
  cases a <;> rfl

theorem cleanItems_append (a b : List PNode) :
    cleanItems (a ++ b) = (cleanItems a && cleanItems b) := by
  induction a with
  | nil => simp [cleanItems]
  | cons x xs ih => simp [cleanItems, ih, Bool.and_assoc]

theorem rlist_nil : rlist [] = [] := rfl

theorem rlist_cons (x : PNode) (xs : List PNode) :
    rlist (x :: xs) = (stringify x).data ++ rlist xs := by
  simp [rlist, stringifyList]

theorem stringifyList_append (a b : List PNode) :
    stringifyList (a ++ b) = stringifyList a ++ stringifyList b := by
  induction a with
  | nil => simp [stringifyList]
  | cons x xs ih => simp [stringifyList, ih]

theorem rlist_append (a b : List PNode) :
    rlist (a ++ b) = rlist a ++ rlist b := by
  simp [rlist, stringifyList_append]

/-- When no item is a bare `"("`, the rejoining loop is the identity. -/
theorem rejoinParensGo_id (fuel : Nat) : ∀ xs : List String,
    (∀ x ∈ xs, x ≠ "(") → rejoinParensGo fuel xs = xs := by
  induction fuel with
  | zero =>
    intro xs _
    cases xs <;> rfl
  | succ fuelN ih =>
    intro xs h
    cases xs with
    | nil => rfl
    | cons x rest =>
      rw [rejoinParensGo, if_neg]
      · rw [ih rest (fun y hy => h y (List.mem_cons_of_mem _ hy))]
      · intro hx
        exact h x (List.mem_cons_self _ _) hx.1

theorem rejoinParens_id (xs : List String) (h : ∀ x ∈ xs, x ≠ "(") :
    rejoinParens xs = xs := rejoinParensGo_id _ xs h

theorem joinSpace_fws (xs : List String) :
    fws (joinSpace xs).data = fws ((xs.map String.data).flatten) := by
  induction xs with
  | nil => rfl
  | cons x rest ih =>
    cases rest with
    | nil => simp [joinSpace]
    | cons y t =>
      show fws (x ++ " " ++ joinSpace (y :: t)).data = _
      have hsp : fws (" " : String).data = [] := rfl
      simp only [String.data_append, fws_append, hsp, List.map_cons,
        List.flatten_cons, List.append_nil, ih]

/-- The rendering of a clean group, modulo whitespace, is the
concatenation of its items' renderings. -/
theorem stringify_group_fws (items : List PNode)
    (h : ∀ x ∈ stringifyList items, x ≠ "(") :
    fws (stringify (.group items)).data = fws (rlist items) := by
  show fws (joinSpace (rejoinParens (stringifyList items))).data = _
  rw [rejoinParens_id _ h, joinSpace_fws]
  rfl

theorem joinArgs_cons_fws (x : String) (xs : List String) :
    fws (joinArgs (x :: xs)).data =
      fws x.data ++ fws (joinArgsTail xs).data := by
  show fws (x ++ joinArgsTail xs).data = _
  simp [String.data_append, fws_append]

theorem fws_cons_keep {c : Char} (h : isPyWS c = false) (l : List Char) :
    fws (c :: l) = c :: fws l := by
  simp [fws, List.filter_cons, h]

theorem fws_cons_drop {c : Char} (h : isPyWS c = true) (l : List Char) :
    fws (c :: l) = fws l := by
  simp [fws, List.filter_cons, h]

theorem fws_cons (c : Char) (l : List Char) :
    fws (c :: l) = if isPyWS c = true then fws l else c :: fws l := by
  by_cases h : isPyWS c = true
  · rw [if_pos h, fws_cons_drop h]
  · rw [if_neg h, fws_cons_keep (by simpa using h)]

theorem joinArgsTail_cons_fws (x : String) (xs : List String) :
    fws (joinArgsTail (x :: xs)).data =
      ',' :: (fws x.data ++ fws (joinArgsTail xs).data) := by
  show fws ((if x ≠ "" then ", " else ",") ++ x ++ joinArgsTail xs).data = _
  by_cases hx : x = ""
  · rw [if_neg (by simp [hx])]
    show fws (',' :: (x.data ++ (joinArgsTail xs).data)) = _
    rw [fws_cons_keep (by decide), fws_append]
  · rw [if_pos hx]
    show fws (',' :: ' ' :: (x.data ++ (joinArgsTail xs).data)) = _
    rw [fws_cons_keep (by decide), fws_cons_drop (by decide), fws_append]

/-- A greedy scan splits a list into the matched prefix and the tail
left by `drop`. -/
theorem eq_append_drop_of_prefix {a l : List Char} (h : a <+: l) :
    l = a ++ l.drop a.length := by
  obtain ⟨t, ht⟩ := h
  subst ht
  rw [List.drop_left]

theorem takeWhile_drop_split (P : Char → Bool) (l : List Char) :
    l = l.takeWhile P ++ l.drop (l.takeWhile P).length :=
  eq_append_drop_of_prefix (List.takeWhile_prefix P)

theorem pUnaryOp_split {p : Option Char} {s : List Char} {op : String}
    {p2 : Option Char} {rest : List Char}
    (h : pUnaryOp p s = some (op, p2, rest)) :
    (op = "+" ∨ op = "-") ∧ ∃ ws, s = ws ++ op.data ++ rest ∧ fws ws = [] := by
  simp only [pUnaryOp, skipPP] at h
  obtain ⟨hsplit, hws⟩ := ppws_split s
  split at h
  · rename_i c r heq
    rw [heq] at hsplit
    by_cases hc : c = '+' ∨ c = '-'
    · rw [if_pos hc] at h
      simp only [Option.some.injEq, Prod.mk.injEq] at h
      obtain ⟨hop, _, hrest⟩ := h
      subst hrest
      subst hop
      refine ⟨by rcases hc with hc | hc <;> subst hc <;> [exact Or.inl rfl;
        exact Or.inr rfl], s.takeWhile isPPWS, ?_, hws⟩
      conv_lhs => rw [hsplit]
      have hd : (String.mk [c]).data = [c] := rfl
      rw [hd]
      simp
    · rw [if_neg hc] at h
      exact absurd h (by simp)
  · exact absurd h (by simp)

theorem pArray_split {p : Option Char} {s : List Char} {t : PNode}
    {p2 : Option Char} {rest : List Char}
    (h : pArray p s = some (t, p2, rest)) :
    ∃ ws content, s = ws ++ ('{' :: (content ++ ['}'])) ++ rest ∧
      fws ws = [] ∧ t = .str ⟨'{' :: (content ++ ['}'])⟩ := by
  simp only [pArray, skipPP] at h
  obtain ⟨hsplit, hws⟩ := ppws_split s
  split at h
  · rename_i r1 heq
    rw [heq] at hsplit
    split at h
    · rename_i r2 heq2
      split at h
      · simp only [Option.some.injEq, Prod.mk.injEq] at h
        obtain ⟨ht, _, hrest⟩ := h
        refine ⟨s.takeWhile isPPWS, r1.takeWhile (· ≠ '}'), ?_, hws, ht.symm⟩
        have hr1 : r1 = r1.takeWhile (· ≠ '}') ++ ('}' :: r2) := by
          conv_lhs => rw [takeWhile_drop_split (· ≠ '}') r1]
          rw [heq2]
        conv_lhs => rw [hsplit, hr1]
        rw [← hrest]
        simp
      · exact absurd h (by simp)
    · exact absurd h (by simp)
  · exact absurd h (by simp)

theorem pRange_split {p : Option Char} {s : List Char} {t : PNode}
    {p2 : Option Char} {rest : List Char}
    (h : pRange p s = some (t, p2, rest)) :
    ∃ ws tok, s = ws ++ tok ++ rest ∧ fws ws = [] ∧ t = .str ⟨tok⟩ ∧
      ':' ∈ tok := by
  simp only [pRange, skipPP] at h
  obtain ⟨hsplit, hws⟩ := ppws_split s
  split at h
  · rename_i r3 heq
    simp only [Option.some.injEq, Prod.mk.injEq] at h
    obtain ⟨ht, _, hrest⟩ := h
    refine ⟨s.takeWhile isPPWS, _, ?_, hws, ht.symm, by simp⟩
    conv_lhs => rw [hsplit]
    rw [List.append_assoc]
    congr 1
    have e1 := takeWhile_drop_split letterDollar (s.dropWhile isPPWS)
    have e2 := takeWhile_drop_split digitDollar
      ((s.dropWhile isPPWS).drop
        ((s.dropWhile isPPWS).takeWhile letterDollar).length)
    have e3 := takeWhile_drop_split letterDollar r3
    have e4 := takeWhile_drop_split digitDollar
      (r3.drop (r3.takeWhile letterDollar).length)
    conv_lhs => rw [e1]
    conv_lhs => rw [e2]
    rw [heq, ← hrest]
    conv_lhs => rw [e3]
    conv_lhs => rw [e4]
    simp
  · exact absurd h (by simp)

theorem pStringLit_shape {dq : Bool} {p : Option Char} {s : List Char}
    {t : PNode} {p2 : Option Char} {rest : List Char}
    (h : pStringLit dq p s = some (t, p2, rest)) : ∃ c, t = .strLit c := by
  rcases dq with _ | _
  · simp only [pStringLit, Bool.false_eq_true, if_false, pStringGR,
      skipPP] at h
    split at h
    · split at h
      · simp only [Option.some.injEq, Prod.mk.injEq] at h
        exact ⟨_, h.1.symm⟩
      · exact absurd h (by simp)
    · split at h
      · simp only [Option.some.injEq, Prod.mk.injEq] at h
        exact ⟨_, h.1.symm⟩
      · exact absurd h (by simp)
    · exact absurd h (by simp)
  · simp only [pStringLit, if_true, pStringFP, skipPP] at h
    split at h
    · split at h
      · simp only [Option.some.injEq, Prod.mk.injEq] at h
        exact ⟨_, h.1.symm⟩
      · exact absurd h (by simp)
    · split at h
      · simp only [Option.some.injEq, Prod.mk.injEq] at h
        exact ⟨_, h.1.symm⟩
      · exact absurd h (by simp)
    · exact absurd h (by simp)

theorem pNumber_shape {p : Option Char} {s : List Char} {t : PNode}
    {p2 : Option Char} {rest : List Char}
    (h : pNumber p s = some (t, p2, rest)) :
    (∃ n, t = .num n) ∨ (∃ r, t = .num_f r) := by
  simp only [pNumber, skipPP] at h
  repeat' split at h
  all_goals
    first
      | (simp only [Option.some.injEq, Prod.mk.injEq] at h
         first
           | exact Or.inl ⟨_, h.1.symm⟩
           | exact Or.inr ⟨_, h.1.symm⟩)
      | exact absurd h (by simp)

theorem pExpr_shape {dq : Bool} {fuel : Nat} {p : Option Char}
    {s : List Char} {t : PNode} {p2 : Option Char} {rest : List Char}
    (h : pExpr dq fuel p s = some (t, p2, rest)) :
    ∃ items, t = .group items := by
  match fuel with
  | 0 => exact absurd h (by simp [pExpr])
  | f + 1 =>
    simp only [pExpr] at h
    split at h
    · exact absurd h (by simp)
    · rename_i items p1 s1 heq
      rcases hop : pOpChain dq f items p1 s1 with ⟨allItems, p2', s2'⟩
      rw [hop] at h
      simp only [Option.some.injEq, Prod.mk.injEq] at h
      exact ⟨allItems, h.1.symm⟩

/-- The `fix_function_call` action only rewrites argument lists whose
single entry renders to the empty string, so it preserves cleanness and
the whitespace-stripped rendering. -/
theorem fixFunctionCall_rt (args : List PNode)
    (hc : cleanArgs (fixFunctionCall args) = true) :
    cleanArgs args = true ∧
      fws (joinArgs (stringifyList (fixFunctionCall args))).data =
        fws (joinArgs (stringifyList args)).data := by
  rcases args with _ | ⟨a, rest⟩
  · exact ⟨rfl, rfl⟩
  · rcases rest with _ | ⟨b, rest2⟩
    · rcases a with s | n | r | c | g | n2 | items
      · -- single .str argument
        show cleanArgs [PNode.str s] = true ∧ _
        by_cases hs : s = "__EMPTY__"
        · subst hs
          refine ⟨rfl, ?_⟩
          rfl
        · have hfix : fixFunctionCall [PNode.str s] = [PNode.str s] := by
            simp [fixFunctionCall, hs]
          rw [hfix] at hc
          exact ⟨hc, by rw [hfix]⟩
      · exact ⟨hc, rfl⟩
      · exact ⟨hc, rfl⟩
      · exact ⟨hc, rfl⟩
      · exact ⟨hc, rfl⟩
      · exact ⟨hc, rfl⟩
      · rcases items with _ | ⟨i, is⟩
        · exact ⟨rfl, rfl⟩
        · exact ⟨hc, rfl⟩
    · exact ⟨hc, rfl⟩

theorem cleanStr_props {tok : String} (hc : cleanNode (.str tok) = true) :
    ¬(tok = "AND" ∨ tok = "OR" ∨ tok = "__EMPTY__") := by
  simpa [cleanNode] using hc

theorem stringify_str_of_ne {tok : String} (hne : tok ≠ "__EMPTY__") :
    stringify (.str tok) = tok := by
  show (if tok = "__EMPTY__" then "" else tok) = tok
  rw [if_neg hne]

/-- Round trip of the unary-operator chain: the produced `+`/`-` items
render to exactly the consumed text modulo whitespace. -/
theorem pUnaryChain_rt (fuel : Nat) : ∀ {p : Option Char} {s : List Char}
    {ops : List String} {p2 : Option Char} {rest : List Char},
    pUnaryChain fuel p s = (ops, p2, rest) →
    ∃ cons, s = cons ++ rest ∧ fws (rlist (ops.map PNode.str)) = fws cons ∧
      ∀ x ∈ stringifyList (ops.map PNode.str), x ≠ "(" := by
  induction fuel with
  | zero =>
    intro p s ops p2 rest h
    simp only [pUnaryChain, Prod.mk.injEq] at h
    obtain ⟨h1, _, h3⟩ := h
    subst h1
    subst h3
    exact ⟨[], by simp, rfl, by simp [stringifyList]⟩
  | succ fuelN ih =>
    intro p s ops p2 rest h
    simp only [pUnaryChain] at h
    split at h
    · simp only [Prod.mk.injEq] at h
      obtain ⟨h1, _, h3⟩ := h
      subst h1
      subst h3
      exact ⟨[], by simp, rfl, by simp [stringifyList]⟩
    · rename_i op p1 s1 heq
      rcases hrec : pUnaryChain fuelN p1 s1 with ⟨more, q2, t2⟩
      rw [hrec] at h
      simp only [Prod.mk.injEq] at h
      obtain ⟨h1, _, h3⟩ := h
      subst h1
      subst h3
      obtain ⟨cons2, hs2, hf2, hnp2⟩ := ih hrec
      obtain ⟨hopv, ws, hsplit, hws⟩ := pUnaryOp_split heq
      have hrender : stringify (PNode.str op) = op := by
        rcases hopv with hv | hv <;> subst hv <;> rfl
      have hnp : op ≠ "(" := by
        rcases hopv with hv | hv <;> subst hv <;> decide
      refine ⟨ws ++ op.data ++ cons2, ?_, ?_, ?_⟩
      · rw [hsplit, hs2]
        simp
      · rw [List.map_cons, rlist_cons, hrender]
        simp [fws_append, hws, hf2]
      · intro x hx
        simp only [List.map_cons, stringifyList, List.mem_cons] at hx
        rcases hx with hx | hx
        · subst hx
          rw [hrender]
          exact hnp
        · exact hnp2 x hx

mutual

/-- Round trip of `expression`: the rendering of a clean parse result
equals the consumed input modulo whitespace. -/
theorem pExpr_rt (dq : Bool) (fuel : Nat) {p : Option Char} {s : List Char}
    {t : PNode} {p2 : Option Char} {rest : List Char}
    (h : pExpr dq fuel p s = some (t, p2, rest)) (hc : cleanNode t = true) :
    ∃ cons, s = cons ++ rest ∧ fws (stringify t).data = fws cons := by
  match fuel with
  | 0 => exact absurd h (by simp [pExpr])
  | fuelN + 1 =>
    simp only [pExpr] at h
    split at h
    · exact absurd h (by simp)
    · rename_i items p1 s1 heq
      rcases hop : pOpChain dq fuelN items p1 s1 with ⟨allItems, q2, t2⟩
      rw [hop] at h
      simp only [Option.some.injEq, Prod.mk.injEq] at h
      obtain ⟨ht, _, hrest⟩ := h
      subst hrest
      subst ht
      obtain ⟨added, hall, hcond⟩ := pOpChain_rt dq fuelN hop
      subst hall
      have hcmix : cleanItems items = true ∧ cleanItems added = true := by
        have h0 : cleanItems (items ++ added) = true := hc
        rw [cleanItems_append, Bool.and_eq_true] at h0
        exact h0
      obtain ⟨consU, hsU, hfU, hnpU⟩ := pUnaryTerm_rt dq fuelN heq hcmix.1
      obtain ⟨consC, hsC, hfC, hnpC⟩ := hcond hcmix.2
      refine ⟨consU ++ consC, ?_, ?_⟩
      · rw [hsU, hsC]
        simp
      · have hnp : ∀ x ∈ stringifyList (items ++ added), x ≠ "(" := by
          intro x hx
          rw [stringifyList_append, List.mem_append] at hx
          rcases hx with hx | hx
          · exact hnpU x hx
          · exact hnpC x hx
        rw [stringify_group_fws _ hnp, rlist_append, fws_append, fws_append,
          hfU, hfC]

/-- Round trip of the `ZeroOrMore(operators + unary_term)` chain. -/
theorem pOpChain_rt (dq : Bool) (fuel : Nat) {acc : List PNode}
    {p : Option Char} {s : List Char} {res : List PNode} {p2 : Option Char}
    {rest : List Char} (h : pOpChain dq fuel acc p s = (res, p2, rest)) :
    ∃ added, res = acc ++ added ∧
      (cleanItems added = true →
        ∃ cons, s = cons ++ rest ∧ fws (rlist added) = fws cons ∧
          ∀ x ∈ stringifyList added, x ≠ "(") := by
  match fuel with
  | 0 =>
    simp only [pOpChain, Prod.mk.injEq] at h
    obtain ⟨h1, _, h3⟩ := h
    subst h1
    subst h3
    exact ⟨[], by simp, fun _ => ⟨[], by simp, rfl, by simp [stringifyList]⟩⟩
  | fuelN + 1 =>
    simp only [pOpChain] at h
    split at h
    · simp only [Prod.mk.injEq] at h
      obtain ⟨h1, _, h3⟩ := h
      subst h1
      subst h3
      exact ⟨[], by simp, fun _ => ⟨[], by simp, rfl, by simp [stringifyList]⟩⟩
    · rename_i op p1 s1 heqOp
      split at h
      · simp only [Prod.mk.injEq] at h
        obtain ⟨h1, _, h3⟩ := h
        subst h1
        subst h3
        exact ⟨[], by simp, fun _ => ⟨[], by simp, rfl, by simp [stringifyList]⟩⟩
      · rename_i items q1 t1 heqUT
        obtain ⟨added2, hres, hcond2⟩ := pOpChain_rt dq fuelN h
        refine ⟨(PNode.str op :: items) ++ added2, by rw [hres]; simp, ?_⟩
        intro hcl
        have hdec : cleanNode (.str op) = true ∧ cleanItems items = true ∧
            cleanItems added2 = true := by
          have h0 : cleanItems (PNode.str op :: (items ++ added2)) = true := by
            simpa using hcl
          have h1 : (cleanNode (.str op) && cleanItems (items ++ added2))
              = true := h0
          rw [cleanItems_append, Bool.and_eq_true, Bool.and_eq_true] at h1
          exact ⟨h1.1, h1.2.1, h1.2.2⟩
        obtain ⟨hcop, hcitems, hcadd⟩ := hdec
        have hopne := cleanStr_props hcop
        rcases pOperators_split heqOp with hAO | ⟨hmem, ws, hsplit, hws⟩
        · exact absurd (by tauto) hopne
        · have hopEMP : op ≠ "__EMPTY__" := fun he =>
            hopne (Or.inr (Or.inr he))
          have hrender := stringify_str_of_ne hopEMP
          have hopPAR : op ≠ "(" := by
            rcases hmem with hv|hv|hv|hv|hv|hv|hv|hv|hv|hv|hv|hv <;>
              subst hv <;> decide
          obtain ⟨consU, hsU, hfU, hnpU⟩ := pUnaryTerm_rt dq fuelN heqUT hcitems
          obtain ⟨consC, hsC, hfC, hnpC⟩ := hcond2 hcadd
          refine ⟨ws ++ op.data ++ (consU ++ consC), ?_, ?_, ?_⟩
          · rw [hsplit, hsU, hsC]
            simp
          · rw [List.cons_append, rlist_cons, rlist_append, hrender]
            simp [fws_append, hws, hfU, hfC]
          · intro x hx
            rw [List.cons_append] at hx
            simp only [stringifyList, List.mem_cons] at hx
            rcases hx with hx | hx
            · subst hx
              rw [hrender]
              exact hopPAR
            · rw [stringifyList_append, List.mem_append] at hx
              rcases hx with hx | hx
              · exact hnpU x hx
              · exact hnpC x hx

/-- Round trip of `unary_term`. -/
theorem pUnaryTerm_rt (dq : Bool) (fuel : Nat) {p : Option Char}
    {s : List Char} {items : List PNode} {p2 : Option Char} {rest : List Char}
    (h : pUnaryTerm dq fuel p s = some (items, p2, rest))
    (hc : cleanItems items = true) :
    ∃ cons, s = cons ++ rest ∧ fws (rlist items) = fws cons ∧
      ∀ x ∈ stringifyList items, x ≠ "(" := by
  match fuel with
  | 0 => exact absurd h (by simp [pUnaryTerm])
  | fuelN + 1 =>
    simp only [pUnaryTerm] at h
    rcases hUC : pUnaryChain fuelN p s with ⟨ops, q1, t1⟩
    rw [hUC] at h
    simp only [] at h
    split at h
    · exact absurd h (by simp)
    · rename_i tm q2 t2 heqT
      simp only [Option.some.injEq, Prod.mk.injEq] at h
      obtain ⟨h1, _, h3⟩ := h
      subst h3
      subst h1
      have hct : cleanNode tm = true := by
        rw [cleanItems_append, Bool.and_eq_true] at hc
        have h2 : (cleanNode tm && cleanItems []) = true := hc.2
        rw [Bool.and_eq_true] at h2
        exact h2.1
      obtain ⟨consC, hsC, hfC, hnpC⟩ := pUnaryChain_rt fuelN hUC
      obtain ⟨consT, hsT, hfT, hneT⟩ := pTerm_rt dq fuelN heqT hct
      refine ⟨consC ++ consT, ?_, ?_, ?_⟩
      · rw [hsC, hsT]
        simp
      · rw [rlist_append, rlist_cons]
        simp only [rlist_nil, List.append_nil]
        rw [fws_append, fws_append, hfC, hfT]
      · intro x hx
        rw [stringifyList_append, List.mem_append] at hx
        rcases hx with hx | hx
        · exact hnpC x hx
        · simp only [stringifyList, List.mem_cons, List.not_mem_nil,
            or_false] at hx
          subst hx
          exact hneT

/-- Round trip of the ordered `term` alternation. -/
theorem pTerm_rt (dq : Bool) (fuel : Nat) {p : Option Char} {s : List Char}
    {t : PNode} {p2 : Option Char} {rest : List Char}
    (h : pTerm dq fuel p s = some (t, p2, rest)) (hc : cleanNode t = true) :
    ∃ cons, s = cons ++ rest ∧ fws (stringify t).data = fws cons ∧
      stringify t ≠ "(" := by
  match fuel with
  | 0 => exact absurd h (by simp [pTerm])
  | fuelN + 1 =>
    simp only [pTerm] at h
    split at h
    · -- parenthesized expression
      rename_i r heqP
      injection h with h'
      subst h'
      exact pParen_rt dq fuelN heqP hc
    · split at h
      · -- function call
        rename_i r heqC
        injection h with h'
        subst h'
        exact pCall_rt dq fuelN heqC hc
      · split at h
        · -- string literal: excluded by cleanness
          rename_i r heqS
          injection h with h'
          subst h'
          obtain ⟨c, hcs⟩ := pStringLit_shape heqS
          rw [hcs] at hc
          exact absurd hc (by simp [cleanNode])
        · split at h
          · -- array literal
            rename_i r heqA
            injection h with h'
            subst h'
            obtain ⟨ws, content, hsplit, hws, htn⟩ := pArray_split heqA
            subst htn
            have hprops := cleanStr_props hc
            have hrender := stringify_str_of_ne
              (fun he => hprops (Or.inr (Or.inr he)))
            refine ⟨ws ++ ('{' :: (content ++ ['}'])), ?_, ?_, ?_⟩
            · exact hsplit
            · rw [hrender]
              show fws ('{' :: (content ++ ['}'])) = _
              rw [fws_append, hws]
              simp
            · rw [hrender]
              intro hcontra
              have hd : '{' :: (content ++ ['}']) = ['('] :=
                congrArg String.data hcontra
              exact absurd (List.head_eq_of_cons_eq hd) (by decide)
          · split at h
            · -- range reference
              rename_i r heqR
              injection h with h'
              subst h'
              obtain ⟨ws, tokL, hsplit, hws, htn, hcolon⟩ := pRange_split heqR
              subst htn
              have hprops := cleanStr_props hc
              have hrender := stringify_str_of_ne
                (fun he => hprops (Or.inr (Or.inr he)))
              refine ⟨ws ++ tokL, ?_, ?_, ?_⟩
              · exact hsplit
              · rw [hrender]
                show fws tokL = _
                rw [fws_append, hws]
                simp
              · rw [hrender]
                intro hcontra
                have hd : tokL = ['('] := congrArg String.data hcontra
                rw [hd] at hcolon
                exact absurd hcolon (by decide)
            · split at h
              · -- number: excluded by cleanness
                rename_i r heqN
                injection h with h'
                subst h'
                rcases pNumber_shape heqN with ⟨n, hn⟩ | ⟨rr, hn⟩ <;>
                  rw [hn] at hc <;> exact absurd hc (by simp [cleanNode])
              · split at h
                · -- cell reference word
                  rename_i tok q1 t1 heqW
                  simp only [Option.some.injEq, Prod.mk.injEq] at h
                  obtain ⟨h1, _, h3⟩ := h
                  subst h3
                  subst h1
                  obtain ⟨ws, c, bodyChars, hsplit, hws, htok, hinit⟩ :=
                    pWord_split heqW
                  have hprops := cleanStr_props hc
                  have hrender := stringify_str_of_ne
                    (fun he => hprops (Or.inr (Or.inr he)))
                  refine ⟨ws ++ (c :: bodyChars), ?_, ?_, ?_⟩
                  · exact hsplit
                  · rw [hrender, htok]
                    show fws (c :: bodyChars) = _
                    rw [fws_append, hws]
                    simp
                  · rw [hrender, htok]
                    intro hcontra
                    have hd : c :: bodyChars = ['('] :=
                      congrArg String.data hcontra
                    have hch := List.head_eq_of_cons_eq hd
                    rw [hch] at hinit
                    exact absurd hinit (by decide)
                · split at h
                  · -- identifier word
                    rename_i tok q1 t1 heqW
                    simp only [Option.some.injEq, Prod.mk.injEq] at h
                    obtain ⟨h1, _, h3⟩ := h
                    subst h3
                    subst h1
                    obtain ⟨ws, c, bodyChars, hsplit, hws, htok, hinit⟩ :=
                      pWord_split heqW
                    have hprops := cleanStr_props hc
                    have hrender := stringify_str_of_ne
                      (fun he => hprops (Or.inr (Or.inr he)))
                    refine ⟨ws ++ (c :: bodyChars), ?_, ?_, ?_⟩
                    · exact hsplit
                    · rw [hrender, htok]
                      show fws (c :: bodyChars) = _
                      rw [fws_append, hws]
                      simp
                    · rw [hrender, htok]
                      intro hcontra
                      have hd : c :: bodyChars = ['('] :=
                        congrArg String.data hcontra
                      have hch := List.head_eq_of_cons_eq hd
                      rw [hch] at hinit
                      exact absurd hinit (by decide)
                  · exact absurd h (by simp)

/-- Round trip of `parenthesized_expr`. -/
theorem pParen_rt (dq : Bool) (fuel : Nat) {p : Option Char} {s : List Char}
    {t : PNode} {p2 : Option Char} {rest : List Char}
    (h : pParen dq fuel p s = some (t, p2, rest)) (hc : cleanNode t = true) :
    ∃ cons, s = cons ++ rest ∧ fws (stringify t).data = fws cons ∧
      stringify t ≠ "(" := by
  match fuel with
  | 0 => exact absurd h (by simp [pParen])
  | fuelN + 1 =>
    simp only [pParen] at h
    split at h
    · exact absurd h (by simp)
    · rename_i p1 s1 heqL1
      split at h
      · exact absurd h (by simp)
      · rename_i g q2 t2 heqE
        split at h
        · exact absurd h (by simp)
        · rename_i p3 s3 heqL2
          simp only [Option.some.injEq, Prod.mk.injEq] at h
          obtain ⟨h1, _, h3⟩ := h
          subst h3
          subst h1
          have hcg : cleanNode g = true := hc
          obtain ⟨ws1, hs1, hw1⟩ := pLitCh_split heqL1
          obtain ⟨consE, hsE, hfE⟩ := pExpr_rt dq fuelN heqE hcg
          obtain ⟨ws2, hs2, hw2⟩ := pLitCh_split heqL2
          refine ⟨ws1 ++ '(' :: (consE ++ (ws2 ++ [')'])), ?_, ?_, ?_⟩
          · rw [hs1, hsE, hs2]
            simp
          · have hren : stringify (PNode.paren g)
                = "(" ++ stringify g ++ ")" := rfl
            rw [hren]
            have hpar : ∀ l, fws ('(' :: l) = '(' :: fws l :=
              fun l => fws_cons_keep (by decide) l
            have hrp : fws [')'] = [')'] := rfl
            have hlp : fws ("(" : String).data = ['('] := rfl
            have hq : fws (")" : String).data = [')'] := rfl
            have hnil : fws ([] : List Char) = [] := rfl
            simp only [String.data_append, fws_append, hfE, hw1, hw2, hpar,
              hrp, hlp, hq, hnil, List.append_assoc, List.nil_append,
              List.append_nil, List.singleton_append, List.cons_append]
          · intro hcontra
            have hren : stringify (PNode.paren g)
                = "(" ++ stringify g ++ ")" := rfl
            rw [hren] at hcontra
            have hd := congrArg List.length (congrArg String.data hcontra)
            simp only [String.data_append, List.length_append] at hd
            have hlp : ("(" : String).data.length = 1 := rfl
            have hrp : (")" : String).data.length = 1 := rfl
            rw [hlp, hrp] at hd
            omega

/-- Round trip of `function_call`. -/
theorem pCall_rt (dq : Bool) (fuel : Nat) {p : Option Char} {s : List Char}
    {t : PNode} {p2 : Option Char} {rest : List Char}
    (h : pCall dq fuel p s = some (t, p2, rest)) (hc : cleanNode t = true) :
    ∃ cons, s = cons ++ rest ∧ fws (stringify t).data = fws cons ∧
      stringify t ≠ "(" := by
  match fuel with
  | 0 => exact absurd h (by simp [pCall])
  | fuelN + 1 =>
    simp only [pCall] at h
    split at h
    · exact absurd h (by simp)
    · rename_i name p1 s1 heqW
      split at h
      · exact absurd h (by simp)
      · rename_i q2 s2 heqL1
        rcases hAL : pArgList dq fuelN q2 s2 with ⟨args, q3, s3⟩
        rw [hAL] at h
        simp only [] at h
        split at h
        · exact absurd h (by simp)
        · rename_i q4 s4 heqL2
          simp only [Option.some.injEq, Prod.mk.injEq] at h
          obtain ⟨h1, _, h3⟩ := h
          subst h3
          subst h1
          have hcargs : cleanArgs (fixFunctionCall args) = true := hc
          obtain ⟨hcArgsPre, hfixEq⟩ := fixFunctionCall_rt args hcargs
          obtain ⟨consA, hsA, hfA⟩ := pArgList_rt dq fuelN hAL hcArgsPre
          obtain ⟨wsW, c, bodyChars, hsW, hwW, htokW, hinitW⟩ :=
            pWord_split heqW
          obtain ⟨ws1, hs1, hw1⟩ := pLitCh_split heqL1
          obtain ⟨ws2, hs2, hw2⟩ := pLitCh_split heqL2
          refine ⟨wsW ++ (c :: bodyChars) ++
            (ws1 ++ '(' :: (consA ++ (ws2 ++ [')']))), ?_, ?_, ?_⟩
          · rw [hsW, hs1, hsA, hs2]
            simp
          · have hren : stringify (PNode.call name (fixFunctionCall args))
                = name ++ "(" ++
                  joinArgs (stringifyList (fixFunctionCall args)) ++ ")" := rfl
            rw [hren, htokW]
            have hpar : ∀ l, fws ('(' :: l) = '(' :: fws l :=
              fun l => fws_cons_keep (by decide) l
            have hrp : fws [')'] = [')'] := rfl
            have hlp : fws ("(" : String).data = ['('] := rfl
            have hq : fws (")" : String).data = [')'] := rfl
            have hnmd : (String.mk (c :: bodyChars)).data = c :: bodyChars :=
              rfl
            have hnil : fws ([] : List Char) = [] := rfl
            simp only [String.data_append, fws_append, fws_cons, hfixEq,
              hfA, hwW, hw1, hw2, hpar, hrp, hlp, hq, hnmd, hnil,
              List.append_assoc, List.nil_append, List.append_nil,
              List.singleton_append, List.cons_append]
          · intro hcontra
            have hren : stringify (PNode.call name (fixFunctionCall args))
                = name ++ "(" ++
                  joinArgs (stringifyList (fixFunctionCall args)) ++ ")" := rfl
            rw [hren, htokW] at hcontra
            have hd := congrArg List.length (congrArg String.data hcontra)
            simp only [String.data_append, List.length_append] at hd
            have hlp : ("(" : String).data.length = 1 := rfl
            have hrp : (")" : String).data.length = 1 := rfl
            have hnm : (String.mk (c :: bodyChars)).data.length
                = bodyChars.length + 1 := by
              show (c :: bodyChars).length = _
              simp
            rw [hlp, hrp, hnm] at hd
            omega

/-- Round trip of `args_list`. -/
theorem pArgList_rt (dq : Bool) (fuel : Nat) {p : Option Char}
    {s : List Char} {args : List PNode} {p2 : Option Char} {rest : List Char}
    (h : pArgList dq fuel p s = (args, p2, rest))
    (hc : cleanArgs args = true) :
    ∃ cons, s = cons ++ rest ∧
      fws (joinArgs (stringifyList args)).data = fws cons := by
  match fuel with
  | 0 =>
    simp only [pArgList, Prod.mk.injEq] at h
    obtain ⟨h1, _, h3⟩ := h
    subst h1
    subst h3
    exact ⟨[], by simp, rfl⟩
  | fuelN + 1 =>
    simp only [pArgList] at h
    split at h
    · simp only [Prod.mk.injEq] at h
      obtain ⟨h1, _, h3⟩ := h
      subst h1
      subst h3
      exact ⟨[], by simp, rfl⟩
    · rename_i a q1 s1 heqA
      rcases hT : pArgTail dq fuelN q1 s1 with ⟨more, q2, s2⟩
      rw [hT] at h
      simp only [Prod.mk.injEq] at h
      obtain ⟨h1, _, h3⟩ := h
      subst h3
      subst h1
      rw [cleanArgs_cons, Bool.and_eq_true] at hc
      obtain ⟨consA, hsA, hfA⟩ := pArgument_rt dq fuelN heqA hc.1
      obtain ⟨consT, hsT, hfT⟩ := pArgTail_rt dq fuelN hT hc.2
      refine ⟨consA ++ consT, ?_, ?_⟩
      · rw [hsA, hsT]
        simp
      · rw [show stringifyList (a :: more)
          = stringify a :: stringifyList more from rfl,
          joinArgs_cons_fws, hfA, hfT, fws_append]

/-- Round trip of the delimited-list tail. -/
theorem pArgTail_rt (dq : Bool) (fuel : Nat) {p : Option Char}
    {s : List Char} {args : List PNode} {p2 : Option Char} {rest : List Char}
    (h : pArgTail dq fuel p s = (args, p2, rest))
    (hc : cleanArgs args = true) :
    ∃ cons, s = cons ++ rest ∧
      fws (joinArgsTail (stringifyList args)).data = fws cons := by
  match fuel with
  | 0 =>
    simp only [pArgTail, Prod.mk.injEq] at h
    obtain ⟨h1, _, h3⟩ := h
    subst h1
    subst h3
    exact ⟨[], by simp, rfl⟩
  | fuelN + 1 =>
    simp only [pArgTail] at h
    split at h
    · simp only [Prod.mk.injEq] at h
      obtain ⟨h1, _, h3⟩ := h
      subst h1
      subst h3
      exact ⟨[], by simp, rfl⟩
    · rename_i q1 s1 heqC
      split at h
      · simp only [Prod.mk.injEq] at h
        obtain ⟨h1, _, h3⟩ := h
        subst h1
        subst h3
        exact ⟨[], by simp, rfl⟩
      · rename_i a q2 s2 heqA
        rcases hT : pArgTail dq fuelN q2 s2 with ⟨more, q3, s3⟩
        rw [hT] at h
        simp only [Prod.mk.injEq] at h
        obtain ⟨h1, _, h3⟩ := h
        subst h3
        subst h1
        rw [cleanArgs_cons, Bool.and_eq_true] at hc
        obtain ⟨wsC, hsC, hwC⟩ := pLitCh_split heqC
        obtain ⟨consA, hsA, hfA⟩ := pArgument_rt dq fuelN heqA hc.1
        obtain ⟨consT, hsT, hfT⟩ := pArgTail_rt dq fuelN hT hc.2
        refine ⟨wsC ++ ',' :: (consA ++ consT), ?_, ?_⟩
        · rw [hsC, hsA, hsT]
          simp
        · rw [show stringifyList (a :: more)
            = stringify a :: stringifyList more from rfl,
            joinArgsTail_cons_fws, hfA, hfT]
          rw [fws_append, hwC, fws_cons_keep (by decide), fws_append]
          simp

/-- Round trip of `argument`. -/
theorem pArgument_rt (dq : Bool) (fuel : Nat) {p : Option Char}
    {s : List Char} {a : PNode} {p2 : Option Char} {rest : List Char}
    (h : pArgument dq fuel p s = some (a, p2, rest))
    (hc : cleanArg a = true) :
    ∃ cons, s = cons ++ rest ∧ fws (stringify a).data = fws cons := by
  match fuel with
  | 0 => exact absurd h (by simp [pArgument])
  | fuelN + 1 =>
    simp only [pArgument, skipPP] at h
    split at h
    · rename_i r heqE
      injection h with h'
      subst h'
      obtain ⟨items, hi⟩ := pExpr_shape heqE
      subst hi
      exact pExpr_rt dq fuelN heqE hc
    · rename_i heqE
      split at h
      · simp only [Option.some.injEq, Prod.mk.injEq] at h
        obtain ⟨h1, _, h3⟩ := h
        subst h3
        subst h1
        exact ⟨[], by simp, rfl⟩
      · simp only [Option.some.injEq, Prod.mk.injEq] at h
        obtain ⟨h1, _, h3⟩ := h
        subst h3
        subst h1
        exact ⟨[], by simp, rfl⟩
      · exact absurd h (by simp)

end

theorem fws_dropWhile_pyWS (l : List Char) :
    fws (l.dropWhile isPyWS) = fws l := by
  induction l with
  | nil => rfl
  | cons c r ih =>
    rw [List.dropWhile_cons]
    by_cases h : isPyWS c = true
    · rw [if_pos h, ih, fws_cons_drop h]
    · rw [if_neg h]

theorem fws_reverse (l : List Char) : fws l.reverse = (fws l).reverse := by
  simp [fws, List.filter_reverse]

/-- `str.strip()` only removes characters that `stripWS` removes anyway. -/
theorem fws_pyStrip (l : List Char) : fws (pyStrip l) = fws l := by
  show fws (((l.dropWhile isPyWS).reverse.dropWhile isPyWS).reverse) = fws l
  rw [fws_reverse, fws_dropWhile_pyWS, fws_reverse, List.reverse_reverse,
    fws_dropWhile_pyWS]

theorem rejoinParens_singleton (x : String) : rejoinParens [x] = [x] := by
  by_cases hx : x = "("
  · subst hx
    rfl
  · exact rejoinParensGo_id 2 [x] (fun y hy => by
      rw [List.mem_singleton] at hy
      subst hy
      exact hx)

/-! ### Substitution-independence support (claim C3) -/

/-- The match condition of the whole-word scanners at the current
position: the literal name is a prefix and both `\b` boundaries hold. -/
def mCond (n0 : Char) (nrest : List Char) (p : Option Char)
    (s : List Char) : Prop :=
  (n0 :: nrest).isPrefixOf s = true ∧ bdry p (some n0) = true ∧
    bdry (some (nrest.getLastD n0)) ((s.drop (nrest.length + 1)).head?) = true

instance mCond_dec (n0 : Char) (nrest : List Char) (p : Option Char)
    (s : List Char) : Decidable (mCond n0 nrest p s) :=
  inferInstanceAs (Decidable (_ ∧ _ ∧ _))

/-- Occurrence scanner mirroring `wordSubGo`: does the whole-word
pattern match anywhere in `s`, given the previous character `p`? -/
def hasOccGo (n0 : Char) (nrest : List Char) : Nat → Option Char →
    List Char → Bool
  | _, _, [] => false
  | 0, _, _ => false
  | fuelN + 1, p, c :: rest =>
    if mCond n0 nrest p (c :: rest) then true
    else hasOccGo n0 nrest fuelN (some c) rest

/-- Whole-word occurrence test with the ends of the string acting as
non-word context (the `\b` convention). -/
def hasWordOcc (name s : List Char) : Bool :=
  match name with
  | [] => false
  | n0 :: nrest => hasOccGo n0 nrest (s.length + 1) none s

theorem wordSubGo_nil (n0 : Char) (nrest ins : List Char) (f : Nat)
    (p : Option Char) : wordSubGo n0 nrest ins f p [] = [] := by
  cases f <;> rfl

theorem simSubGo_nil (pairs : List (Char × List Char × List Char)) (f : Nat)
    (p : Option Char) : simSubGo pairs f p [] = [] := by
  cases f <;> rfl

theorem hasOccGo_nil (n0 : Char) (nrest : List Char) (f : Nat)
    (p : Option Char) : hasOccGo n0 nrest f p [] = false := by
  cases f <;> rfl

theorem wordSubGo_fuel (n0 : Char) (nrest ins : List Char) :
    ∀ f1 f2 p s, s.length ≤ f1 → s.length ≤ f2 →
      wordSubGo n0 nrest ins f1 p s = wordSubGo n0 nrest ins f2 p s := by
  intro f1
  induction f1 with
  | zero =>
    intro f2 p s h1 _
    have : s = [] := List.eq_nil_of_length_eq_zero (Nat.le_zero.mp h1)
    subst this
    rw [wordSubGo_nil, wordSubGo_nil]
  | succ f1N ih =>
    intro f2 p s h1 h2
    cases s with
    | nil => rw [wordSubGo_nil, wordSubGo_nil]
    | cons c rest =>
      cases f2 with
      | zero => simp at h2
      | succ f2N =>
        show (if mCond n0 nrest p (c :: rest) then _ else _)
          = (if mCond n0 nrest p (c :: rest) then _ else _)
        by_cases hc : mCond n0 nrest p (c :: rest)
        · rw [if_pos hc, if_pos hc]
          have hd : ((c :: rest).drop (nrest.length + 1)).length ≤ f1N := by
            rw [List.length_drop]
            simp only [List.length_cons] at h1 ⊢
            omega
          have hd2 : ((c :: rest).drop (nrest.length + 1)).length ≤ f2N := by
            rw [List.length_drop]
            simp only [List.length_cons] at h2 ⊢
            omega
          rw [ih f2N _ _ hd hd2]
        · rw [if_neg hc, if_neg hc]
          simp only [List.length_cons] at h1 h2
          rw [ih f2N _ _ (by omega) (by omega)]

theorem simSubGo_fuel (pairs : List (Char × List Char × List Char)) :
    ∀ f1 f2 p s, s.length ≤ f1 → s.length ≤ f2 →
      simSubGo pairs f1 p s = simSubGo pairs f2 p s := by
  intro f1
  induction f1 with
  | zero =>
    intro f2 p s h1 _
    have : s = [] := List.eq_nil_of_length_eq_zero (Nat.le_zero.mp h1)
    subst this
    rw [simSubGo_nil, simSubGo_nil]
  | succ f1N ih =>
    intro f2 p s h1 h2
    cases s with
    | nil => rw [simSubGo_nil, simSubGo_nil]
    | cons c rest =>
      cases f2 with
      | zero => simp at h2
      | succ f2N =>
        have e1 : simSubGo pairs (f1N + 1) p (c :: rest)
            = match simFind pairs p (c :: rest) with
              | some q => q.2.2 ++ simSubGo pairs f1N
                  (some (q.2.1.getLastD q.1))
                  ((c :: rest).drop (q.2.1.length + 1))
              | none => c :: simSubGo pairs f1N (some c) rest := rfl
        have e2 : simSubGo pairs (f2N + 1) p (c :: rest)
            = match simFind pairs p (c :: rest) with
              | some q => q.2.2 ++ simSubGo pairs f2N
                  (some (q.2.1.getLastD q.1))
                  ((c :: rest).drop (q.2.1.length + 1))
              | none => c :: simSubGo pairs f2N (some c) rest := rfl
        rw [e1, e2]
        rcases hf : simFind pairs p (c :: rest) with _ | q
        · simp only []
          simp only [List.length_cons] at h1 h2
          rw [ih f2N _ _ (by omega) (by omega)]
        · simp only []
          have hd : ((c :: rest).drop (q.2.1.length + 1)).length ≤ f1N := by
            rw [List.length_drop]
            simp only [List.length_cons] at h1 ⊢
            omega
          have hd2 : ((c :: rest).drop (q.2.1.length + 1)).length ≤ f2N := by
            rw [List.length_drop]
            simp only [List.length_cons] at h2 ⊢
            omega
          rw [ih f2N _ _ hd hd2]

theorem hasOccGo_fuel (n0 : Char) (nrest : List Char) :
    ∀ f1 f2 p s, s.length ≤ f1 → s.length ≤ f2 →
      hasOccGo n0 nrest f1 p s = hasOccGo n0 nrest f2 p s := by
  intro f1
  induction f1 with
  | zero =>
    intro f2 p s h1 _
    have : s = [] := List.eq_nil_of_length_eq_zero (Nat.le_zero.mp h1)
    subst this
    rw [hasOccGo_nil, hasOccGo_nil]
  | succ f1N ih =>
    intro f2 p s h1 h2
    cases s with
    | nil => rw [hasOccGo_nil, hasOccGo_nil]
    | cons c rest =>
      cases f2 with
      | zero => simp at h2
      | succ f2N =>
        show (if mCond n0 nrest p (c :: rest) then true else _)
          = (if mCond n0 nrest p (c :: rest) then true else _)
        by_cases hc : mCond n0 nrest p (c :: rest)
        · rw [if_pos hc, if_pos hc]
        · rw [if_neg hc, if_neg hc]
          simp only [List.length_cons] at h1 h2
          rw [ih f2N _ _ (by omega) (by omega)]

/-- Canonical-fuel whole-word single-name replacement scan. -/
def wsub (n0 : Char) (nrest ins : List Char) (p : Option Char)
    (s : List Char) : List Char :=
  wordSubGo n0 nrest ins (s.length + 1) p s

/-- Canonical-fuel simultaneous replacement scan. -/
def ssub (pairs : List (Char × List Char × List Char)) (p : Option Char)
    (s : List Char) : List Char :=
  simSubGo pairs (s.length + 1) p s

/-- Canonical-fuel occurrence scan. -/
def hocc (n0 : Char) (nrest : List Char) (p : Option Char)
    (s : List Char) : Bool :=
  hasOccGo n0 nrest (s.length + 1) p s

theorem wsub_cons (n0 : Char) (nrest ins : List Char) (p : Option Char)
    (c : Char) (rest : List Char) :
    wsub n0 nrest ins p (c :: rest) =
      if mCond n0 nrest p (c :: rest) then
        ins ++ wsub n0 nrest ins (some (nrest.getLastD n0))
          ((c :: rest).drop (nrest.length + 1))
      else c :: wsub n0 nrest ins (some c) rest := by
  show (if mCond n0 nrest p (c :: rest) then
      ins ++ wordSubGo n0 nrest ins (rest.length + 1)
        (some (nrest.getLastD n0)) ((c :: rest).drop (nrest.length + 1))
    else c :: wordSubGo n0 nrest ins (rest.length + 1) (some c) rest) = _
  by_cases hc : mCond n0 nrest p (c :: rest)
  · rw [if_pos hc, if_pos hc]
    rw [wordSubGo_fuel n0 nrest ins (rest.length + 1)
      (((c :: rest).drop (nrest.length + 1)).length + 1) _ _
      (by rw [List.length_drop]; simp; omega) (by omega)]
    rfl
  · rw [if_neg hc, if_neg hc]
    rfl

theorem ssub_cons (pairs : List (Char × List Char × List Char))
    (p : Option Char) (c : Char) (rest : List Char) :
    ssub pairs p (c :: rest) =
      match simFind pairs p (c :: rest) with
      | some q => q.2.2 ++ ssub pairs (some (q.2.1.getLastD q.1))
          ((c :: rest).drop (q.2.1.length + 1))
      | none => c :: ssub pairs (some c) rest := by
  show (match simFind pairs p (c :: rest) with
    | some q => q.2.2 ++ simSubGo pairs (rest.length + 1)
        (some (q.2.1.getLastD q.1)) ((c :: rest).drop (q.2.1.length + 1))
    | none => c :: simSubGo pairs (rest.length + 1) (some c) rest) = _
  rcases hf : simFind pairs p (c :: rest) with _ | q
  · rfl
  · show _ ++ simSubGo pairs (rest.length + 1) _ _
      = _ ++ simSubGo pairs (((c :: rest).drop (q.2.1.length + 1)).length + 1) _ _
    rw [simSubGo_fuel pairs (rest.length + 1)
      (((c :: rest).drop (q.2.1.length + 1)).length + 1) _ _
      (by rw [List.length_drop]; simp; omega) (by omega)]

theorem hocc_cons (n0 : Char) (nrest : List Char) (p : Option Char)
    (c : Char) (rest : List Char) :
    hocc n0 nrest p (c :: rest) =
      if mCond n0 nrest p (c :: rest) then true
      else hocc n0 nrest (some c) rest := by
  show (if mCond n0 nrest p (c :: rest) then true
      else hasOccGo n0 nrest (rest.length + 1) (some c) rest) = _
  rfl

theorem lastOr_cons_shift (c : Char) (u : List Char) (p : Option Char) :
    lastOr (c :: u) p = lastOr u (some c) := by
  cases u with
  | nil => rfl
  | cons d u' =>
    obtain ⟨x, hx⟩ : ∃ x, (d :: u').getLast? = some x :=
      ⟨(d :: u').getLast (by simp), List.getLast?_eq_getLast _ _⟩
    simp [lastOr, List.getLast?_cons_cons, hx]

theorem lastOr_of_ne_nil {u : List Char} (h : u ≠ []) (p p' : Option Char) :
    lastOr u p = lastOr u p' := by
  obtain ⟨x, hx⟩ : ∃ x, u.getLast? = some x :=
    ⟨u.getLast h, List.getLast?_eq_getLast u h⟩
  simp [lastOr, hx]

/-- No whole-word match of `n0 :: nrest` starts at any position of `s`,
scanning with initial previous character `p`. -/
def NoOccFrom (n0 : Char) (nrest : List Char) (p : Option Char)
    (s : List Char) : Prop :=
  ∀ u v, s = u ++ v → ¬ mCond n0 nrest (lastOr u p) v

theorem isPrefixOf_cons_cons {a c : Char} {as rest : List Char}
    (h : (a :: as).isPrefixOf (c :: rest) = true) :
    a = c ∧ as.isPrefixOf rest = true := by
  simp only [List.isPrefixOf, Bool.and_eq_true, beq_iff_eq] at h
  exact h

theorem mCond_congr_prev {n0 : Char} {nrest : List Char}
    {p p' : Option Char} {s : List Char} (h : isWordOpt p = isWordOpt p') :
    mCond n0 nrest p s ↔ mCond n0 nrest p' s := by
  unfold mCond bdry
  rw [h]

theorem mCond_prev_nonword {n0 : Char} {nrest : List Char}
    {p : Option Char} {s : List Char} (hw : isWordChar n0 = true)
    (h : mCond n0 nrest p s) : isWordOpt p = false := by
  have hb := h.2.1
  unfold bdry isWordOpt at hb
  cases p with
  | none => rfl
  | some d =>
    simp only [hw, bne_iff_ne, ne_eq] at hb
    simp only [isWordOpt]
    rcases hh : isWordChar d with _ | _
    · rfl
    · exact absurd hh hb

theorem hocc_false_noOcc (n0 : Char) (nrest : List Char) :
    ∀ s p, hocc n0 nrest p s = false → NoOccFrom n0 nrest p s := by
  intro s
  induction s with
  | nil =>
    intro p _ u v huv hc
    have hv : v = [] := (List.append_eq_nil.mp huv.symm).2
    subst hv
    exact absurd hc.1 (by simp [List.isPrefixOf])
  | cons c rest ih =>
    intro p h u v huv
    rw [hocc_cons] at h
    by_cases hc : mCond n0 nrest p (c :: rest)
    · rw [if_pos hc] at h
      exact absurd h (by simp)
    · rw [if_neg hc] at h
      cases u with
      | nil =>
        simp only [List.nil_append] at huv
        subst huv
        exact hc
      | cons d u' =>
        rw [List.cons_append] at huv
        injection huv with h1 h2
        subst h1
        rw [lastOr_cons_shift]
        exact ih (some c) h u' v h2

theorem NoOccFrom_congr_prev {n0 : Char} {nrest : List Char}
    {p p' : Option Char} {s : List Char} (h : isWordOpt p = isWordOpt p')
    (hno : NoOccFrom n0 nrest p s) : NoOccFrom n0 nrest p' s := by
  intro u v huv hc
  refine hno u v huv ?_
  cases u with
  | nil => exact (mCond_congr_prev h).mpr hc
  | cons d u' => rwa [lastOr_of_ne_nil (show d :: u' ≠ [] by simp) p' p] at hc

theorem simFind_none_iff (pairs : List (Char × List Char × List Char))
    (p : Option Char) (s : List Char) :
    simFind pairs p s = none ↔ ∀ q ∈ pairs, ¬ mCond q.1 q.2.1 p s := by
  show List.find? _ pairs = none ↔ _
  rw [List.find?_eq_none]
  constructor
  · intro h q hq hc
    exact h q hq (decide_eq_true hc)
  · intro h q hq hd
    exact h q hq (of_decide_eq_true hd)

theorem simFind_cons (q : Char × List Char × List Char)
    (pairs : List (Char × List Char × List Char)) (p : Option Char)
    (s : List Char) :
    simFind (q :: pairs) p s =
      if mCond q.1 q.2.1 p s then some q else simFind pairs p s := by
  show List.find? _ (q :: pairs) = _
  by_cases hc : mCond q.1 q.2.1 p s
  · rw [if_pos hc]
    exact List.find?_cons_of_pos _ (decide_eq_true hc)
  · rw [if_neg hc]
    exact List.find?_cons_of_neg _ (fun hd => hc (of_decide_eq_true hd))

/-- A whole-word match decomposes the string as name ++ remainder. -/
theorem mCond_decomp {n0 : Char} {nrest : List Char} {p : Option Char}
    {s : List Char} (h : mCond n0 nrest p s) :
    s = (n0 :: nrest) ++ s.drop (nrest.length + 1) := by
  have hpre : (n0 :: nrest) <+: s := by
    rw [← List.isPrefixOf_iff_prefix]
    exact h.1
  obtain ⟨t, ht⟩ := hpre
  conv_lhs => rw [← ht]
  congr 1
  rw [← ht, show nrest.length + 1 = (n0 :: nrest).length from by simp,
    List.drop_left]

/-- The single-name scan copies a word-character block it does not match
at the head of. -/
theorem wsub_skip (n0 : Char) (nrest ins : List Char)
    (hw : isWordChar n0 = true) :
    ∀ (w : List Char), (∀ c ∈ w, isWordChar c = true) →
    ∀ z p, ¬ mCond n0 nrest p (w ++ z) →
    wsub n0 nrest ins p (w ++ z) = w ++ wsub n0 nrest ins (lastOr w p) z := by
  intro w
  induction w with
  | nil =>
    intro _ z p _
    rfl
  | cons c w' ih =>
    intro hww z p hnc
    rw [List.cons_append, wsub_cons, if_neg (by rwa [List.cons_append] at hnc)]
    rw [List.cons_append]
    congr 1
    rw [lastOr_cons_shift]
    have hcw : isWordChar c = true := hww c (List.mem_cons_self _ _)
    refine ih (fun d hd => hww d (List.mem_cons_of_mem _ hd)) z (some c) ?_
    intro hmc
    have hb := hmc.2.1
    simp only [bdry, isWordOpt] at hb
    rw [hcw, hw] at hb
    exact absurd hb (by decide)

/-- The simultaneous scan copies a word-character block none of whose
names match at its head. -/
theorem ssub_skip (pairs : List (Char × List Char × List Char))
    (hwP : ∀ q ∈ pairs, isWordChar q.1 = true) :
    ∀ (w : List Char), (∀ c ∈ w, isWordChar c = true) →
    ∀ z p, (∀ q ∈ pairs, ¬ mCond q.1 q.2.1 p (w ++ z)) →
    ssub pairs p (w ++ z) = w ++ ssub pairs (lastOr w p) z := by
  intro w
  induction w with
  | nil =>
    intro _ z p _
    rfl
  | cons c w' ih =>
    intro hww z p hnc
    rw [List.cons_append, ssub_cons]
    rw [show simFind pairs p (c :: (w' ++ z)) = none from
      (simFind_none_iff _ _ _).mpr (fun q hq hc => hnc q hq
        (by rwa [List.cons_append]))]
    simp only []
    rw [List.cons_append]
    congr 1
    rw [lastOr_cons_shift]
    have hcw : isWordChar c = true := hww c (List.mem_cons_self _ _)
    refine ih (fun d hd => hww d (List.mem_cons_of_mem _ hd)) z (some c) ?_
    intro q hq hmc
    have hb := hmc.2.1
    simp only [bdry, isWordOpt] at hb
    rw [hcw, hwP q hq] at hb
    exact absurd hb (by decide)

/-- When the head of the remaining input is not a word character, the
previous-character state cannot influence the simultaneous scan. -/
theorem ssub_prev (pairs : List (Char × List Char × List Char))
    (hwP : ∀ q ∈ pairs, isWordChar q.1 = true) (s : List Char)
    (hs : ∀ c0, s.head? = some c0 → isWordChar c0 = false)
    (p p' : Option Char) : ssub pairs p s = ssub pairs p' s := by
  cases s with
  | nil => rfl
  | cons c rest =>
    have hc : isWordChar c = false := hs c rfl
    rw [ssub_cons, ssub_cons]
    have hf : ∀ pp, simFind pairs pp (c :: rest) = none := fun pp =>
      (simFind_none_iff _ _ _).mpr (fun q hq hmc => by
        obtain ⟨h1, -⟩ := isPrefixOf_cons_cons hmc.1
        have := hwP q hq
        rw [h1, hc] at this
        exact absurd this (by simp))
    rw [hf p, hf p']

/-- The single-name scan preserves a non-word head character. -/
theorem wsub_head_nonword (n0 : Char) (nrest ins : List Char)
    (hw : isWordChar n0 = true) (s : List Char) (p : Option Char)
    (hs : ∀ c0, s.head? = some c0 → isWordChar c0 = false) :
    (wsub n0 nrest ins p s).head? = s.head? := by
  cases s with
  | nil => rfl
  | cons c rest =>
    have hc := hs c rfl
    rw [wsub_cons, if_neg]
    · rfl
    · intro hmc
      obtain ⟨h1, -⟩ := isPrefixOf_cons_cons hmc.1
      rw [h1, hc] at hw
      exact absurd hw (by simp)

theorem head_dropWhile_nonP (P : Char → Bool) :
    ∀ (l : List Char) (c0 : Char), (l.dropWhile P).head? = some c0 →
      P c0 = false := by
  intro l
  induction l with
  | nil => intro c0 h; exact absurd h (by simp)
  | cons c rest ih =>
    intro c0 h
    rw [List.dropWhile_cons] at h
    by_cases hc : P c = true
    · rw [if_pos hc] at h
      exact ih c0 h
    · rw [if_neg hc] at h
      simp only [List.head?_cons, Option.some.injEq] at h
      subst h
      simpa using hc

theorem getLastD_mem (n0 : Char) (nrest : List Char) :
    nrest.getLastD n0 ∈ n0 :: nrest := by
  induction nrest generalizing n0 with
  | nil => simp [List.getLastD]
  | cons d t ih =>
    rw [List.getLastD_cons]
    rcases List.mem_cons.mp (ih d) with h | h
    · rw [h]
      simp
    · exact List.mem_cons_of_mem _ (List.mem_cons_of_mem _ h)

theorem lastOr_name (a : Char) : ∀ (l : List Char) (p : Option Char),
    lastOr (a :: l) p = some (l.getLastD a) := by
  intro l
  induction l generalizing a with
  | nil => intro p; rfl
  | cons d t ih =>
    intro p
    rw [lastOr_cons_shift, ih d, List.getLastD_cons]

/-- A word boundary after a word character forces the next character to
be a non-word character. -/
theorem head_nonword_of_bdry {lastc : Char} {X : List Char}
    (hl : isWordChar lastc = true) (hb : bdry (some lastc) X.head? = true) :
    ∀ c0, X.head? = some c0 → isWordChar c0 = false := by
  intro c0 hc0
  rw [hc0] at hb
  simp only [bdry, isWordOpt, hl] at hb
  rcases hh : isWordChar c0 with _ | _
  · rfl
  · rw [hh] at hb
    exact absurd hb (by decide)

/-- A whole-word match of an all-word name followed only by non-word
context restricts to the first block. -/
theorem mCond_truncate {n0 : Char} {nrest : List Char} {P : Option Char}
    {v tail : List Char}
    (hwname : ∀ c ∈ n0 :: nrest, isWordChar c = true)
    (htail : ∀ c0, tail.head? = some c0 → isWordChar c0 = false)
    (h : mCond n0 nrest P (v ++ tail)) : mCond n0 nrest P v := by
  obtain ⟨hpre, hbl, hbr⟩ := h
  by_cases hfit : nrest.length + 1 ≤ v.length
  · have hpre' : (n0 :: nrest).isPrefixOf v = true := by
      rw [List.isPrefixOf_iff_prefix] at hpre ⊢
      rw [List.prefix_iff_eq_take] at hpre ⊢
      rwa [List.take_append_of_le_length (by simpa using hfit)] at hpre
    refine ⟨hpre', hbl, ?_⟩
    have hdrop : (v ++ tail).drop (nrest.length + 1)
        = v.drop (nrest.length + 1) ++ tail :=
      List.drop_append_of_le_length hfit
    rw [hdrop] at hbr
    rcases hv : v.drop (nrest.length + 1) with _ | ⟨d, dd⟩
    · have hlast : isWordChar (nrest.getLastD n0) = true :=
        hwname _ (getLastD_mem n0 nrest)
      unfold bdry
      rw [show isWordOpt (some (nrest.getLastD n0)) = true from by
          simp only [isWordOpt]; exact hlast,
        show isWordOpt (([] : List Char).head?) = false from rfl]
      rfl
    · rw [hv] at hbr
      simp only [List.cons_append, List.head?_cons] at hbr ⊢
      exact hbr
  · exfalso
    rw [List.isPrefixOf_iff_prefix] at hpre
    obtain ⟨t2, ht2⟩ := hpre
    have hd := congrArg (List.drop v.length) ht2
    rw [List.drop_left] at hd
    rw [List.drop_append_of_le_length (by simp; omega)] at hd
    rcases hn : (n0 :: nrest).drop v.length with _ | ⟨d, dd⟩
    · have hlen := congrArg List.length hn
      simp at hlen
      omega
    · rw [hn] at hd
      have hdm : d ∈ n0 :: nrest := List.drop_subset _ _
        (by rw [hn]; exact List.mem_cons_self d dd)
      have hwd : isWordChar d = true := hwname d hdm
      have hth : tail.head? = some d := by
        rw [← hd]
        rfl
      rw [htail d hth] at hwd
      exact absurd hwd (by simp)

/-- Conversely, a whole-word match extends across appended non-word
context. -/
theorem mCond_extend {n0 : Char} {nrest : List Char} {P : Option Char}
    {v tail : List Char}
    (hwname : ∀ c ∈ n0 :: nrest, isWordChar c = true)
    (htail : ∀ c0, tail.head? = some c0 → isWordChar c0 = false)
    (h : mCond n0 nrest P v) : mCond n0 nrest P (v ++ tail) := by
  obtain ⟨hpre, hbl, hbr⟩ := h
  have hfit : nrest.length + 1 ≤ v.length := by
    rw [List.isPrefixOf_iff_prefix] at hpre
    have := hpre.length_le
    simpa using this
  have hpre2 := hpre
  rw [List.isPrefixOf_iff_prefix] at hpre2
  refine ⟨?_, hbl, ?_⟩
  · rw [List.isPrefixOf_iff_prefix]
    exact hpre2.trans (List.prefix_append v tail)
  · have hdrop : (v ++ tail).drop (nrest.length + 1)
        = v.drop (nrest.length + 1) ++ tail :=
      List.drop_append_of_le_length hfit
    rw [hdrop]
    rcases hv : v.drop (nrest.length + 1) with _ | ⟨d, dd⟩
    · simp only [List.nil_append]
      have hlast : isWordChar (nrest.getLastD n0) = true :=
        hwname _ (getLastD_mem n0 nrest)
      unfold bdry
      rw [show isWordOpt (some (nrest.getLastD n0)) = true from by
        simp only [isWordOpt]; exact hlast]
      rcases ht : tail.head? with _ | c0
      · rfl
      · rw [show isWordOpt (some c0) = isWordChar c0 from rfl, htail c0 ht]
        rfl
    · rw [hv] at hbr
      simp only [List.cons_append, List.head?_cons] at hbr ⊢
      exact hbr

theorem simFind_some {pairs : List (Char × List Char × List Char)}
    {p : Option Char} {s : List Char} {q : Char × List Char × List Char}
    (h : simFind pairs p s = some q) :
    q ∈ pairs ∧ mCond q.1 q.2.1 p s := by
  refine ⟨List.mem_of_find?_eq_some h, ?_⟩
  have h2 := List.find?_some h
  exact of_decide_eq_true h2

theorem simFind_congr (pairs : List (Char × List Char × List Char))
    (p : Option Char) (T T' : List Char)
    (h : ∀ q ∈ pairs, (mCond q.1 q.2.1 p T ↔ mCond q.1 q.2.1 p T')) :
    simFind pairs p T = simFind pairs p T' := by
  induction pairs with
  | nil => rfl
  | cons q qs ih =>
    rw [simFind_cons, simFind_cons]
    by_cases hc : mCond q.1 q.2.1 p T
    · rw [if_pos hc, if_pos ((h q (by simp)).mp hc)]
    · rw [if_neg hc, if_neg (fun hc' => hc ((h q (by simp)).mpr hc'))]
      exact ih (fun q' hq' => h q' (List.mem_cons_of_mem _ hq'))

/-- The simultaneous scan copies inserted argument text verbatim: no
name occurs whole-word inside it, names are all word characters (so no
match can straddle its right edge into the following non-word context),
and the preceding context is non-word. -/
theorem ssub_skip_ins (pairs : List (Char × List Char × List Char))
    (hwP : ∀ q ∈ pairs, ∀ c ∈ q.1 :: q.2.1, isWordChar c = true) :
    ∀ (ins : List Char) (p : Option Char) (tail : List Char),
    (∀ q ∈ pairs, NoOccFrom q.1 q.2.1 p ins) →
    (∀ c0, tail.head? = some c0 → isWordChar c0 = false) →
    ssub pairs p (ins ++ tail) = ins ++ ssub pairs (lastOr ins p) tail := by
  intro ins
  induction ins with
  | nil =>
    intro p tail _ _
    rfl
  | cons c ins' ih =>
    intro p tail hno htail
    rw [List.cons_append, ssub_cons]
    rw [show simFind pairs p (c :: (ins' ++ tail)) = none from
      (simFind_none_iff _ _ _).mpr (fun q hq hc => by
        have hc2 : mCond q.1 q.2.1 p (c :: ins') :=
          mCond_truncate (hwP q hq) htail hc
        exact hno q hq [] (c :: ins') rfl hc2)]
    simp only []
    rw [List.cons_append]
    congr 1
    rw [lastOr_cons_shift]
    refine ih (some c) tail (fun q hq u v huv hc => ?_) htail
    exact hno q hq (c :: u) v (by rw [huv]; rfl)
      (by rwa [lastOr_cons_shift])

/-- Fusion of one sequential whole-word pass into the simultaneous
scan: running the simultaneous scan of the remaining parameters over
the output of the first parameter's pass equals running the
simultaneous scan of all parameters over the original text, provided
every name consists of word characters only and no remaining name
occurs whole-word inside the first parameter's inserted text. -/
theorem ssub_absorb (n0 : Char) (nrest ins : List Char)
    (pairs : List (Char × List Char × List Char))
    (hw1 : ∀ c ∈ n0 :: nrest, isWordChar c = true)
    (hwP : ∀ q ∈ pairs, ∀ c ∈ q.1 :: q.2.1, isWordChar c = true)
    (hins : ∀ q ∈ pairs, NoOccFrom q.1 q.2.1 none ins)
    (s : List Char) : ∀ (p : Option Char),
    ssub ((n0, nrest, ins) :: pairs) p s
      = ssub pairs p (wsub n0 nrest ins p s) := by
  have hn0w : isWordChar n0 = true := hw1 n0 (List.mem_cons_self _ _)
  have hwPh : ∀ q ∈ pairs, isWordChar q.1 = true :=
    fun q hq => hwP q hq q.1 (List.mem_cons_self _ _)
  cases s with
  | nil => intro p; rfl
  | cons c rest =>
    intro p
    by_cases h1 : mCond n0 nrest p (c :: rest)
    · -- the first name matches at the head
      have hlastw : isWordChar (nrest.getLastD n0) = true :=
        hw1 _ (getLastD_mem n0 nrest)
      have hpnw : isWordOpt p = false := mCond_prev_nonword hn0w h1
      have hs1h : ∀ c0, ((c :: rest).drop (nrest.length + 1)).head?
          = some c0 → isWordChar c0 = false :=
        head_nonword_of_bdry hlastw h1.2.2
      have hfull : simFind ((n0, nrest, ins) :: pairs) p (c :: rest)
          = some (n0, nrest, ins) := by
        rw [simFind_cons]
        exact if_pos h1
      rw [ssub_cons, hfull]
      simp only []
      rw [wsub_cons, if_pos h1]
      have hXh : ∀ c0, (wsub n0 nrest ins (some (nrest.getLastD n0))
          ((c :: rest).drop (nrest.length + 1))).head? = some c0 →
          isWordChar c0 = false := by
        rw [wsub_head_nonword n0 nrest ins hn0w _ _ hs1h]
        exact hs1h
      rw [ssub_skip_ins pairs hwP ins p _
        (fun q hq => NoOccFrom_congr_prev
          (show isWordOpt none = isWordOpt p by rw [hpnw]; rfl)
          (hins q hq)) hXh]
      congr 1
      have hlen1 : ((c :: rest).drop (nrest.length + 1)).length
          < (c :: rest).length := by
        simp only [List.length_drop, List.length_cons]
        omega
      rw [ssub_absorb n0 nrest ins pairs hw1 hwP hins
        ((c :: rest).drop (nrest.length + 1)) (some (nrest.getLastD n0))]
      exact ssub_prev pairs hwPh _ hXh _ _
    · rcases hfind : simFind pairs p (c :: rest) with _ | q
      · by_cases h2 : isWordChar c = true
        · -- word-run block with no match at its head
          have hsplit : c :: rest = (c :: rest).takeWhile isWordChar
              ++ (c :: rest).dropWhile isWordChar :=
            (List.takeWhile_append_dropWhile _ _).symm
          set w := (c :: rest).takeWhile isWordChar with hw_def
          set z := (c :: rest).dropWhile isWordChar with hz_def
          have hww : ∀ d ∈ w, isWordChar d = true :=
            fun d hd => List.mem_takeWhile_imp hd
          have hzh : ∀ c0, z.head? = some c0 → isWordChar c0 = false :=
            fun c0 => head_dropWhile_nonP isWordChar (c :: rest) c0
          have hwne : w ≠ [] := by
            rw [hw_def, List.takeWhile_cons, if_pos h2]
            simp
          have hlenz : z.length < (c :: rest).length := by
            have hl := congrArg List.length hsplit
            rw [List.length_append] at hl
            have hwpos : 0 < w.length := List.length_pos.mpr hwne
            omega
          have hlenz2 : ((c :: rest).dropWhile isWordChar).length
              < rest.length + 1 := by
            have h3 := hz_def ▸ hlenz
            simpa using h3
          have hword_full : ∀ q' ∈ (n0, nrest, ins) :: pairs,
              isWordChar q'.1 = true := by
            intro q' hq'
            rcases List.mem_cons.mp hq' with rfl | hq'
            · exact hn0w
            · exact hwPh q' hq'
          have hnc_full : ∀ q' ∈ (n0, nrest, ins) :: pairs,
              ¬ mCond q'.1 q'.2.1 p (w ++ z) := by
            intro q' hq' hc
            rw [← hsplit] at hc
            rcases List.mem_cons.mp hq' with rfl | hq'
            · exact h1 hc
            · exact (simFind_none_iff _ _ _).mp hfind q' hq' hc
          conv_lhs => rw [hsplit]
          rw [ssub_skip ((n0, nrest, ins) :: pairs) hword_full w hww z p
            hnc_full]
          conv_rhs => rw [hsplit]
          rw [wsub_skip n0 nrest ins hn0w w hww z p
            (by rw [← hsplit]; exact h1)]
          have hXh : ∀ c0, (wsub n0 nrest ins (lastOr w p) z).head?
              = some c0 → isWordChar c0 = false := by
            rw [wsub_head_nonword n0 nrest ins hn0w z _ hzh]
            exact hzh
          rw [ssub_skip pairs hwPh w hww (wsub n0 nrest ins (lastOr w p) z)
            p (by
              intro q' hq' hc
              have hcw : mCond q'.1 q'.2.1 p w :=
                mCond_truncate (hwP q' hq') hXh hc
              have hcz : mCond q'.1 q'.2.1 p (w ++ z) :=
                mCond_extend (hwP q' hq') hzh hcw
              rw [← hsplit] at hcz
              exact (simFind_none_iff _ _ _).mp hfind q' hq' hcz)]
          congr 1
          exact ssub_absorb n0 nrest ins pairs hw1 hwP hins z (lastOr w p)
        · -- non-word head character: both scans copy it
          have hnw : isWordChar c = false := by simpa using h2
          have hfull : simFind ((n0, nrest, ins) :: pairs) p (c :: rest)
              = none := by
            refine (simFind_none_iff _ _ _).mpr ?_
            intro q' hq' hc
            obtain ⟨he, -⟩ := isPrefixOf_cons_cons hc.1
            have hqw : isWordChar q'.1 = true := by
              rcases List.mem_cons.mp hq' with rfl | hq2
              · exact hn0w
              · exact hwPh q' hq2
            rw [he, hnw] at hqw
            exact absurd hqw (by simp)
          rw [ssub_cons, hfull]
          simp only []
          rw [wsub_cons, if_neg h1, ssub_cons]
          rw [show simFind pairs p
              (c :: wsub n0 nrest ins (some c) rest) = none from by
            refine (simFind_none_iff _ _ _).mpr ?_
            intro q' hq' hc
            obtain ⟨he, -⟩ := isPrefixOf_cons_cons hc.1
            have hqw := hwPh q' hq'
            rw [he, hnw] at hqw
            exact absurd hqw (by simp)]
          simp only []
          congr 1
          exact ssub_absorb n0 nrest ins pairs hw1 hwP hins rest (some c)
      · -- a later pair matches at the head
        obtain ⟨hqmem, hqc⟩ := simFind_some hfind
        have hqw := hwP q hqmem
        have hlastq : isWordChar (q.2.1.getLastD q.1) = true :=
          hqw _ (getLastD_mem _ _)
        have hdec := mCond_decomp hqc
        have hs2h : ∀ c0, ((c :: rest).drop (q.2.1.length + 1)).head?
            = some c0 → isWordChar c0 = false :=
          head_nonword_of_bdry hlastq hqc.2.2
        have hlen2 : ((c :: rest).drop (q.2.1.length + 1)).length
            < (c :: rest).length := by
          simp only [List.length_drop, List.length_cons]
          omega
        have hfull : simFind ((n0, nrest, ins) :: pairs) p (c :: rest)
            = some q := by
          rw [simFind_cons, if_neg h1]
          exact hfind
        rw [ssub_cons, hfull]
        simp only []
        conv_rhs => rw [hdec]
        rw [wsub_skip n0 nrest ins hn0w (q.1 :: q.2.1) hqw _ p
          (by rw [← hdec]; exact h1)]
        rw [lastOr_name]
        have hXh : ∀ c0, (wsub n0 nrest ins (some (q.2.1.getLastD q.1))
            ((c :: rest).drop (q.2.1.length + 1))).head? = some c0 →
            isWordChar c0 = false := by
          rw [wsub_head_nonword n0 nrest ins hn0w _ _ hs2h]
          exact hs2h
        rw [List.cons_append, ssub_cons]
        rw [show simFind pairs p (q.1 :: (q.2.1 ++ wsub n0 nrest ins
            (some (q.2.1.getLastD q.1))
            ((c :: rest).drop (q.2.1.length + 1)))) = some q from by
          have hcongr := simFind_congr pairs p
            (q.1 :: (q.2.1 ++ wsub n0 nrest ins
              (some (q.2.1.getLastD q.1))
              ((c :: rest).drop (q.2.1.length + 1))))
            ((q.1 :: q.2.1) ++ (c :: rest).drop (q.2.1.length + 1))
            (fun q' hq' => ⟨
              fun hc => mCond_extend (hwP q' hq') hs2h
                (mCond_truncate (hwP q' hq') hXh hc),
              fun hc => mCond_extend (hwP q' hq') hXh
                (mCond_truncate (hwP q' hq') hs2h hc)⟩)
          rw [hcongr, ← hdec]
          exact hfind]
        simp only []
        rw [show (q.1 :: (q.2.1 ++ wsub n0 nrest ins
            (some (q.2.1.getLastD q.1))
            ((c :: rest).drop (q.2.1.length + 1)))).drop
            (q.2.1.length + 1)
            = wsub n0 nrest ins (some (q.2.1.getLastD q.1))
              ((c :: rest).drop (q.2.1.length + 1)) from by
          rw [List.drop_succ_cons, List.drop_left]]
        congr 1
        rw [ssub_absorb n0 nrest ins pairs hw1 hwP hins
          ((c :: rest).drop (q.2.1.length + 1)) (some (q.2.1.getLastD q.1))]
termination_by s.length
decreasing_by
  all_goals simp_wf
  all_goals omega

/-- A template without backslashes expands to itself. -/
theorem expandTemplateGo_noBS (m : List Char) :
    ∀ (fuel : Nat) (l : List Char), '\\' ∉ l → l.length ≤ fuel →
      expandTemplateGo m fuel l = .ok l := by
  intro fuel
  induction fuel with
  | zero =>
    intro l h hlen
    have : l = [] := List.eq_nil_of_length_eq_zero (Nat.le_zero.mp hlen)
    subst this
    rfl
  | succ n ih =>
    intro l h hlen
    cases l with
    | nil => rfl
    | cons c rest =>
      have hc : c ≠ '\\' := by
        intro hh
        exact h (hh ▸ List.mem_cons_self c rest)
      have hr : '\\' ∉ rest := fun hh => h (List.mem_cons_of_mem c hh)
      have hlen2 : rest.length ≤ n := by
        simp at hlen
        omega
      show (if c = '\\' then expandTemplateEsc m (expandTemplateGo m n) rest
        else do
          let t ← expandTemplateGo m n rest
          Except.ok (c :: t)) = Except.ok (c :: rest)
      rw [if_neg hc, ih rest hr hlen2]
      rfl


theorem ssub_nil_pairs : ∀ (s : List Char) (p : Option Char),
    ssub [] p s = s := by
  intro s
  induction s with
  | nil => intro p; rfl
  | cons c rest ih =>
    intro p
    rw [ssub_cons]
    rw [show simFind [] p (c :: rest) = none from rfl]
    simp only []
    rw [ih (some c)]

/-- With a backslash-free replacement string the `re.sub` call reduces
to the pure whole-word replacement. -/
theorem reSubWord_noBS (name repl s : List Char) (hbs : '\\' ∉ repl) :
    reSubWord name repl s = .ok (wordSub name repl s) := by
  unfold reSubWord expandTemplate
  rw [expandTemplateGo_noBS name (repl.length + 1) repl hbs (by omega)]
  rfl

/-- The parameter/argument pair list of the simultaneous scan, built
from the engine's own inputs (parameters with empty names are skipped,
mirroring `independentSub`). -/
def pairList : List Param → List PNode →
    List (Char × List Char × List Char)
  | p :: ps, a :: as_ =>
    match p.name.data with
    | [] => pairList ps as_
    | n0 :: nrest => (n0, nrest, (argString a).data) :: pairList ps as_
  | _, _ => []

theorem pairList_mem : ∀ (params : List Param) (args : List PNode)
    (q : Char × List Char × List Char), q ∈ pairList params args →
    ∃ pj aj, (pj, aj) ∈ params.zip args ∧ pj.name.data = q.1 :: q.2.1 ∧
      (argString aj).data = q.2.2 := by
  intro params
  induction params with
  | nil =>
    intro args q hq
    rcases args with _ | ⟨a, as_⟩ <;> exact absurd hq (by simp [pairList])
  | cons p ps ih =>
    intro args q hq
    rcases args with _ | ⟨a, as_⟩
    · exact absurd hq (by simp [pairList])
    · rcases hn : p.name.data with _ | ⟨n0, nrest⟩
      · rw [show pairList (p :: ps) (a :: as_) = pairList ps as_ from by
          rw [pairList, hn]] at hq
        obtain ⟨pj, aj, hmem, heq1, heq2⟩ := ih as_ q hq
        exact ⟨pj, aj, List.mem_cons_of_mem _ hmem, heq1, heq2⟩
      · rw [show pairList (p :: ps) (a :: as_)
            = (n0, nrest, (argString a).data) :: pairList ps as_ from by
          rw [pairList, hn]] at hq
        rcases List.mem_cons.mp hq with rfl | hq
        · exact ⟨p, a, List.mem_cons_self _ _, hn, rfl⟩
        · obtain ⟨pj, aj, hmem, heq1, heq2⟩ := ih as_ q hq
          exact ⟨pj, aj, List.mem_cons_of_mem _ hmem, heq1, heq2⟩

theorem pairList_filterMap : ∀ (params : List Param) (args : List PNode),
    (((params.map Param.name).zip (args.map argString)).filterMap (fun q =>
      match q.1.data with
      | [] => none
      | n0 :: nrest => some (n0, nrest, q.2.data)))
      = pairList params args := by
  intro params
  induction params with
  | nil =>
    intro args
    rcases args with _ | ⟨a, as_⟩ <;> rfl
  | cons p ps ih =>
    intro args
    rcases args with _ | ⟨a, as_⟩
    · rfl
    · simp only [List.map_cons, List.zip_cons_cons, List.filterMap_cons]
      rcases hn : p.name.data with _ | ⟨n0, nrest⟩
      · rw [show pairList (p :: ps) (a :: as_) = pairList ps as_ from by
          rw [pairList, hn]]
        exact ih as_
      · rw [show pairList (p :: ps) (a :: as_)
            = (n0, nrest, (argString a).data) :: pairList ps as_ from by
          rw [pairList, hn]]
        rw [ih as_]

/-- The sequential substitution loop equals the simultaneous scan when
all parameter names are nonempty word-only identifiers, the argument
strings are backslash-free, and no later parameter name occurs
whole-word inside an earlier argument string. -/
theorem go_eq_ssub : ∀ (params : List Param) (args : List PNode),
    params.length = args.length →
    (∀ q ∈ params, q.name.data ≠ [] ∧
      ∀ c ∈ q.name.data, isWordChar c = true) →
    (∀ a ∈ args, '\\' ∉ (argString a).data) →
    (params.zip args).Pairwise (fun x y =>
      hasWordOcc y.1.name.data (argString x.2).data = false) →
    ∀ acc : List Char,
    substituteArguments.go params args acc
      = Except.ok ⟨ssub (pairList params args) none acc⟩ := by
  intro params
  induction params with
  | nil =>
    intro args _ _ _ _ acc
    rw [show substituteArguments.go [] args acc = Except.ok ⟨acc⟩ from by
      rw [substituteArguments.go]]
    rw [show pairList [] args = [] from by cases args <;> rfl]
    rw [ssub_nil_pairs]
  | cons p ps ih =>
    intro args hlen hword hbs hno acc
    rcases args with _ | ⟨a, as_⟩
    · simp at hlen
    · rw [substituteArguments.go]
      rw [reSubWord_noBS p.name.data (argString a).data acc
        (hbs a (List.mem_cons_self _ _))]
      rw [show (Except.ok (wordSub p.name.data (argString a).data acc) >>=
          fun acc2 => substituteArguments.go ps as_ acc2)
          = substituteArguments.go ps as_
            (wordSub p.name.data (argString a).data acc) from rfl]
      rw [List.zip_cons_cons, List.pairwise_cons] at hno
      rw [ih as_ (by simpa using hlen)
        (fun q hq => hword q (List.mem_cons_of_mem _ hq))
        (fun b hb => hbs b (List.mem_cons_of_mem _ hb)) hno.2]
      obtain ⟨hne, hwname⟩ := hword p (List.mem_cons_self _ _)
      rcases hn : p.name.data with _ | ⟨n0, nrest⟩
      · exact absurd hn hne
      · rw [show pairList (p :: ps) (a :: as_)
            = (n0, nrest, (argString a).data) :: pairList ps as_ from by
          rw [pairList, hn]]
        congr 1
        congr 1
        rw [show wordSub (n0 :: nrest) (argString a).data acc
            = wsub n0 nrest (argString a).data none acc from rfl]
        refine (ssub_absorb n0 nrest (argString a).data (pairList ps as_)
          (by rw [← hn]; exact hwname) ?_ ?_ acc none).symm
        · intro q hq c hc
          obtain ⟨pj, aj, hmem, heq1, -⟩ := pairList_mem ps as_ q hq
          have hmem2 : pj ∈ ps := (List.of_mem_zip hmem).1
          have hword2 := (hword pj (List.mem_cons_of_mem _ hmem2)).2
          rw [heq1] at hword2
          exact hword2 c hc
        · intro q hq
          obtain ⟨pj, aj, hmem, heq1, -⟩ := pairList_mem ps as_ q hq
          have hocc0 := hno.1 (pj, aj) hmem
          rw [heq1] at hocc0
          exact hocc_false_noOcc q.1 q.2.1 (argString a).data none hocc0

/-! ### The claims -/

/-- C9.  Grammar acceptance/rejection set: each of `A1 B1`, `A1::`,
`((`, `FUNC(`, `)`, `A1+`, `+`, `LBRACE RBRACE` and `LBRACE , RBRACE`
fails to parse (the grammar cannot consume the full input), while
`=A1+B1`, `FUNC()`, `FUNC(,)` and `--A1` parse successfully — in both
cited parsers (`generate_readme.py` and `formula_parser.py`). -/
theorem claim_C9_grammar_sets :
    (parseGR "A1 B1" = none ∧ parseFP "A1 B1" = none) ∧
    (parseGR "A1::" = none ∧ parseFP "A1::" = none) ∧
    (parseGR "((" = none ∧ parseFP "((" = none) ∧
    (parseGR "FUNC(" = none ∧ parseFP "FUNC(" = none) ∧
    (parseGR ")" = none ∧ parseFP ")" = none) ∧
    (parseGR "A1+" = none ∧ parseFP "A1+" = none) ∧
    (parseGR "+" = none ∧ parseFP "+" = none) ∧
    (parseGR "{}" = none ∧ parseFP "{}" = none) ∧
    (parseGR "{,}" = none ∧ parseFP "{,}" = none) ∧
    ((parseGR "=A1+B1").isSome = true ∧ (parseFP "=A1+B1").isSome = true) ∧
    ((parseGR "FUNC()").isSome = true ∧ (parseFP "FUNC()").isSome = true) ∧
    ((parseGR "FUNC(,)").isSome = true ∧ (parseFP "FUNC(,)").isSome = true) ∧
    ((parseGR "--A1").isSome = true ∧ (parseFP "--A1").isSome = true) :=
  ⟨⟨rfl, rfl⟩, ⟨rfl, rfl⟩, ⟨rfl, rfl⟩, ⟨rfl, rfl⟩, ⟨rfl, rfl⟩, ⟨rfl, rfl⟩,
    ⟨rfl, rfl⟩, ⟨rfl, rfl⟩, ⟨rfl, rfl⟩, ⟨rfl, rfl⟩, ⟨rfl, rfl⟩, ⟨rfl, rfl⟩,
    ⟨rfl, rfl⟩⟩

/-- C2.  String-literal escaping: parsing `FUNC("Say ""Hello""")` with
the doubled-quote parser of `scripts/formula_parser.py` succeeds and
yields exactly one argument, a string literal whose unescaped stored
value is `Say "Hello"` — the first half of the claim holds.  The second
half fails in the code: `reconstruct_call` re-adds bare quotes without
re-doubling the embedded ones, emitting `FUNC("Say "Hello"")` instead
of the original doubled-quote form (contradicting its own docstring
"Reconstruct the original function call text" — the output is not even
re-parseable). -/
theorem claim_C2_string_escaping :
    parseFP "FUNC(\"Say \"\"Hello\"\"\")" =
      some (.group [.group [.call "FUNC" [.group [.strLit "Say \"Hello\""]]]]) ∧
    reconstructCall "FUNC" [.group [.strLit "Say \"Hello\""]] =
      "FUNC(\"Say \"Hello\"\")" ∧
    "FUNC(\"Say \"Hello\"\")" ≠ "FUNC(\"Say \"\"Hello\"\"\")" :=
  ⟨rfl, rfl, by decide⟩

/-- C7.  Cycle detection on the specification's example graphs: the
two-node cycle yields exactly the cycle description `A → B → A`, and
the acyclic chain yields no cycles. -/
theorem claim_C7_cycle_detection :
    detectCycles [("A", ["B"]), ("B", ["A"])] = .ok ["A → B → A"] ∧
    detectCycles [("A", ["B"]), ("B", ["C"]), ("C", [])] = .ok [] :=
  ⟨rfl, rfl⟩

/-- C6.  Extraction depth ordering: for `OUTER(INNER(x))` with both
names known the extractor returns exactly two call sites, `INNER` at
depth 1 (strictly greater than `OUTER`'s 0) and listed first; and for
every tree the output list is sorted by depth in non-increasing order. -/
theorem claim_C6_depth_ordering :
    ((parseGR "OUTER(INNER(x))").map (fun t =>
        (extractFunctionCalls t ["OUTER", "INNER"]).map
          (fun c => (c.name, c.depth))))
      = some [("INNER", 1), ("OUTER", 0)] ∧
    ∀ (t : PNode) (named : List String),
      (extractFunctionCalls t named).Pairwise depthGE :=
  ⟨rfl, fun _ _ => pairwise_sortByDepthDesc _⟩

/-- C4, counterexample.  The claim says a known-name call nested only
inside builtin calls is reported with depth 0; on `SUM(MYFUNC(x))` with
known set `{MYFUNC}` the code reports `MYFUNC` at depth 1, because the
walker increments depth for the arguments of every `FunctionCall` node
whether or not its name is known. -/
theorem claim_C4_counterexample :
    (parseGR "SUM(MYFUNC(x))").map (fun t =>
        (extractFunctionCalls t ["MYFUNC"]).map (fun c => (c.name, c.depth)))
      = some [("MYFUNC", 1)] ∧
    (parseGR "SUM(MYFUNC(x))").map (fun t =>
        (extractFunctionCalls t ["MYFUNC"]).map (fun c => (c.name, c.depth)))
      ≠ some [("MYFUNC", 0)] :=
  ⟨rfl, by intro h; rw [show (parseGR "SUM(MYFUNC(x))").map (fun t =>
      (extractFunctionCalls t ["MYFUNC"]).map (fun c => (c.name, c.depth)))
      = some [("MYFUNC", 1)] from rfl] at h; simp at h⟩

/-- C4, amended.  A call site `(nm, args, d)` appears in the
extractor's output iff `nm` is in the known-name set and the call
occurs in the tree below exactly `d` enclosing `FunctionCall` nodes of
any name, known or builtin; so depth 0 means the call is not nested
inside any other function call (not merely any named one). -/
theorem claim_C4_depth_semantics (t : PNode) (named : List String)
    (s : CallSite) :
    s ∈ extractFunctionCalls t named ↔
      ∃ d0 nm args, OccursAt t d0 nm args ∧ nm ∈ named ∧ s = ⟨nm, args, d0⟩ := by
  rw [extractFunctionCalls, mem_sortByDepthDesc, walkNode_occurs]
  simp

/-- C1, counterexample.  `FUNC(A1+B1)` is accepted by the grammar and
contains no named-function calls, yet reconstruction yields
`FUNC(A1 + B1)`: spaces are inserted around the `+` operator, and
since the body contains no comma at all, the difference cannot be
whitespace normalization around commas. -/
theorem claim_C1_counterexample :
    (parseGR "FUNC(A1+B1)").map stringify = some "FUNC(A1 + B1)" ∧
    (parseGR "FUNC(A1+B1)").map
        (fun t => (extractFunctionCalls t []).isEmpty) = some true ∧
    "FUNC(A1 + B1)" ≠ "FUNC(A1+B1)" ∧
    ',' ∉ "FUNC(A1+B1)".data :=
  ⟨rfl, rfl, by decide, by decide⟩

/-- C1, amended.  Reconstruction is a left inverse of parsing only
modulo whitespace normalization *everywhere* (spaces are also inserted
around operators and after argument commas), and only on bodies whose
parse tree is clean: no string literals (escapes are removed without
being re-added), no numeric literals (reformatted by `int`/`float`),
no `AND`/`OR` operator items (case-canonicalized), and no `__EMPTY__`
identifier.  For every such accepted body — named-function calls or
not — the rendering of the parse equals the `=`-stripped body with all
whitespace deleted. -/
theorem claim_C1_roundtrip (B : String) (t : PNode)
    (hp : parseGR B = some t) (hclean : cleanNode t = true) :
    stripWS (stringify t) = stripWS ⟨B.data.dropWhile (· = '=')⟩ := by
  simp only [parseGR, runGrammar] at hp
  split at hp
  · exact absurd hp (by simp)
  · rename_i g p1 s1 heqE
    simp only [skipPP] at hp
    split at hp
    · rename_i hnil
      simp only [Option.some.injEq] at hp
      subst hp
      have hcg : cleanNode g = true := by
        have h0 : (cleanNode g && true) = true := hclean
        simpa using h0
      obtain ⟨cons, hs, hf⟩ := pExpr_rt false _ heqE hcg
      have hs1 : fws s1 = [] :=
        fws_of_ppws (List.dropWhile_eq_nil_iff.mp hnil)
      have hrg : stringify (PNode.group [g]) = stringify g := by
        show joinSpace (rejoinParens (stringifyList [g])) = stringify g
        rw [show stringifyList [g] = [stringify g] from rfl,
          rejoinParens_singleton]
        rfl
      show stripWS (stringify (PNode.group [g])) = _
      rw [hrg]
      show String.mk (fws (stringify g).data)
        = String.mk (fws (B.data.dropWhile (· = '=')))
      congr 1
      rw [hf]
      have hnil2 : fws (cons ++ s1) = fws cons := by
        rw [fws_append, hs1, List.append_nil]
      rw [← hnil2, ← hs, fws_pyStrip]
    · exact absurd hp (by simp)

/-- C1 witness: the body `=IF( A1 , (B1 - C1) , FUNC() )` parses to a
clean tree and round-trips modulo whitespace (both sides strip to
`IF(A1,(B1-C1),FUNC())`). -/
theorem claim_C1_witness :
    parseGR "=IF( A1 , (B1 - C1) , FUNC() )" = some (.group [.group [.call "IF"
        [.group [.str "A1"],
         .group [.paren (.group [.str "B1", .str "-", .str "C1"])],
         .group [.call "FUNC" []]]]]) ∧
    cleanNode (.group [.group [.call "IF"
        [.group [.str "A1"],
         .group [.paren (.group [.str "B1", .str "-", .str "C1"])],
         .group [.call "FUNC" []]]]]) = true ∧
    stripWS (stringify (.group [.group [.call "IF"
        [.group [.str "A1"],
         .group [.paren (.group [.str "B1", .str "-", .str "C1"])],
         .group [.call "FUNC" []]]]])) =
      stripWS ⟨("=IF( A1 , (B1 - C1) , FUNC() )" : String).data.dropWhile
        (· = '=')⟩ :=
  ⟨rfl, rfl, claim_C1_roundtrip "=IF( A1 , (B1 - C1) , FUNC() )" _ rfl rfl⟩

/-- C3, counterexample.  With parameters `x, y` and argument strings
`"y", "2"` on body `x + y`, the engine returns `2 + 2`: the text `y`
inserted for the earlier parameter `x` was re-scanned and rewritten by
the later parameter's pass, whereas independent passes keyed by
position produce `y + 2`. -/
theorem claim_C3_counterexample :
    substituteArguments "x + y" [⟨"x"⟩, ⟨"y"⟩] [.str "y", .str "2"] =
      .ok "2 + 2" ∧
    independentSub "x + y" ["x", "y"] ["y", "2"] = "y + 2" ∧
    ("2 + 2" : String) ≠ "y + 2" :=
  ⟨rfl, rfl, by decide⟩

/-- C3, amended.  The engine does *not* substitute on independent
passes: each parameter is replaced by a separate `re.sub` over the
accumulated result, so text inserted for an earlier parameter is
re-scanned by every later pass (refuted by the counterexample above).
The sequential loop provably coincides with the independent
simultaneous semantics exactly under no-rescan conditions: all
parameter names are nonempty and consist of word characters only, all
argument strings are backslash-free, and no later parameter's name
occurs as a whole word inside an earlier argument's string. -/
theorem claim_C3_substitution_independence (body : String)
    (params : List Param) (args : List PNode)
    (hlen : params.length = args.length)
    (hword : ∀ q ∈ params, q.name.data ≠ [] ∧
      ∀ c ∈ q.name.data, isWordChar c = true)
    (hbs : ∀ a ∈ args, '\\' ∉ (argString a).data)
    (hno : (params.zip args).Pairwise (fun x y =>
      hasWordOcc y.1.name.data (argString x.2).data = false)) :
    substituteArguments body params args
      = .ok (independentSub body (params.map Param.name)
          (args.map argString)) := by
  unfold substituteArguments
  rw [if_neg (by simp [hlen])]
  rw [go_eq_ssub params args hlen hword hbs hno body.data]
  congr 1
  rw [← pairList_filterMap params args]
  rfl

/-- C3 witness: `x + y` with parameters `x, y` and arguments `A1, 2`
satisfies the no-rescan conditions, and the sequential engine equals
the independent semantics, both yielding `A1 + 2`. -/
theorem claim_C3_witness :
    ([⟨"x"⟩, ⟨"y"⟩] : List Param).length
      = ([.str "A1", .str "2"] : List PNode).length ∧
    (∀ q ∈ ([⟨"x"⟩, ⟨"y"⟩] : List Param), q.name.data ≠ [] ∧
      ∀ c ∈ q.name.data, isWordChar c = true) ∧
    (∀ a ∈ ([.str "A1", .str "2"] : List PNode),
      '\\' ∉ (argString a).data) ∧
    (([⟨"x"⟩, ⟨"y"⟩] : List Param).zip
        ([.str "A1", .str "2"] : List PNode)).Pairwise (fun x y =>
      hasWordOcc y.1.name.data (argString x.2).data = false) ∧
    substituteArguments "x + y" [⟨"x"⟩, ⟨"y"⟩] [.str "A1", .str "2"]
      = .ok (independentSub "x + y" ["x", "y"] ["A1", "2"]) ∧
    substituteArguments "x + y" [⟨"x"⟩, ⟨"y"⟩] [.str "A1", .str "2"]
      = .ok "A1 + 2" := by
  refine ⟨rfl, by decide, by decide, by decide, ?_, rfl⟩
  exact claim_C3_substitution_independence "x + y" [⟨"x"⟩, ⟨"y"⟩]
    [.str "A1", .str "2"] rfl (by decide) (by decide) (by decide)

/-- C5, counterexample.  A formula whose body `A1 B1` fails to parse is
not flagged as a defect: `expand_formula` returns the body text as the
formula's "expansion" (an `ok` result, silently emitted and cached),
and the dependency-graph builder records it as having no
dependencies — no parse error is collected anywhere. -/
theorem claim_C5_counterexample :
    expandFormula [⟨"BAD", [], "A1 B1"⟩] 5 [] ⟨"BAD", [], "A1 B1"⟩ =
      .ok ([("BAD", "A1 B1")], "A1 B1") ∧
    parseGR "A1 B1" = none ∧
    buildDependencyGraph [⟨"BAD", [], "A1 B1"⟩] = [("BAD", [])] :=
  ⟨rfl, rfl, rfl⟩

/-- C5, amended.  When a formula's body fails to parse,
`expand_formula` swallows the `ParseException`: it caches and returns
the comment-stripped body as the formula's own "expansion" (no error is
raised, nothing is flagged or collected), and
`build_dependency_graph` records the formula with no dependencies.
Only exceptions actually raised during expansion (parameter-count
mismatches, consistency errors) reach the catalog-wide collection and
abort. -/
theorem claim_C5_parse_error_swallowed (allF : List Formula) (fuelN : Nat)
    (cache : Cache) (f : Formula) (formulas : List Formula)
    (hmiss : cacheFind cache f.name = none)
    (hfail : parseGR ⟨pyStrip (stripComments f.formula).data⟩ = none)
    (hfailRaw : parseGR f.formula = none)
    (hmem : f ∈ formulas) :
    expandFormula allF (fuelN + 1) cache f =
      .ok (cacheInsert cache f.name ⟨pyStrip (stripComments f.formula).data⟩,
        ⟨pyStrip (stripComments f.formula).data⟩) ∧
    (f.name, []) ∈ buildDependencyGraph formulas := by
  constructor
  · simp only [expandFormula, hmiss, hfail]
  · rw [buildDependencyGraph]
    refine List.mem_map.mpr ⟨f, hmem, ?_⟩
    rw [hfailRaw]

/-- Witness for C5's amended theorem at the concrete catalog
`{BAD: "A1 B1"}`. -/
theorem claim_C5_witness :
    expandFormula [⟨"BAD", [], "A1 B1"⟩] 4 [] ⟨"BAD", [], "A1 B1"⟩ =
      .ok ([("BAD", "A1 B1")], "A1 B1") ∧
    ("BAD", []) ∈ buildDependencyGraph [⟨"BAD", [], "A1 B1"⟩] :=
  claim_C5_parse_error_swallowed [⟨"BAD", [], "A1 B1"⟩] 3 [] ⟨"BAD", [], "A1 B1"⟩
    [⟨"BAD", [], "A1 B1"⟩] rfl rfl rfl (by simp)

/-- C8.  Expansion-consistency guard: on a first expansion (no
pre-existing cache entry for the formula) whose body parses and whose
extracted call list is non-empty, any successful return of
`expand_formula` carries text that differs — ignoring a leading `=` and
surrounding whitespace — from the comment-stripped body; when the text
would not differ the function raises the fatal
expansion-consistency `ValidationError` instead, which
`generate_formula_list` turns into a build-blocking failure. -/
theorem claim_C8_consistency_guard (allF : List Formula) (fuelN : Nat)
    (cache : Cache) (f : Formula) (c2 : Cache) (res : String) (ast : PNode)
    (hmiss : cacheFind cache f.name = none)
    (hparse : parseGR ⟨pyStrip (stripComments f.formula).data⟩ = some ast)
    (hcalls : (extractFunctionCalls ast (allF.map (·.name))).isEmpty = false)
    (hok : expandFormula allF (fuelN + 1) cache f = .ok (c2, res)) :
    lstripEqStrip res ≠ lstripEqStrip ⟨pyStrip (stripComments f.formula).data⟩ := by
  simp only [expandFormula, hmiss, hparse, hcalls, Bool.false_eq_true,
    if_false] at hok
  rcases hloop : expandCallLoop allF fuelN cache
      (⟨pyStrip (stripComments f.formula).data⟩ : String) ""
      (extractFunctionCalls ast (allF.map (·.name))) with e | ⟨c1, result0, lastCT⟩ <;>
    rw [hloop] at hok
  · simp [Bind.bind, Except.bind] at hok
  · simp only [Bind.bind, Except.bind] at hok
    split at hok <;> split at hok <;> split at hok <;>
      first
        | exact Except.noConfusion hok
        | (rename_i hne
           simp only [Except.ok.injEq, Prod.mk.injEq] at hok
           rw [← hok.2]
           exact hne)

/-- C10.  The substitution engine passes each argument string directly
as the replacement template of `re.sub`.  When the argument contains no
backslash, the pass inserts the argument text verbatim at every
whole-word occurrence of the parameter (`reSubWord` reduces to the
literal scanner `wordSub`); with a backslash, the behaviour diverges
from verbatim insertion: `g<0>` after a backslash inserts the matched
parameter name instead of the argument text, and a trailing lone
backslash raises `re.error("bad escape (end of pattern)")`. -/
theorem claim_C10_replacement_templates :
    (∀ (name repl s : List Char), '\\' ∉ repl →
      reSubWord name repl s = .ok (wordSub name repl s)) ∧
    substituteArguments "a x b" [⟨"x"⟩] [.str "\\g<0>!"] = .ok "a x! b" ∧
    ("a x! b" : String) ≠ "a \\g<0>! b" ∧
    substituteArguments "x" [⟨"x"⟩] [.str "a\\"] =
      .error (.reError "bad escape (end of pattern)") := by
  refine ⟨?_, rfl, by decide, rfl⟩
  intro name repl s h
  rw [reSubWord, expandTemplate,
    expandTemplateGo_noBS name (repl.length + 1) repl h (by omega)]
  rfl

/-- Witness for C10's universal part at parameter `x`, argument `R1`
and body `a x b`. -/
theorem claim_C10_witness :
    '\\' ∉ ("R1" : String).data ∧
    reSubWord "x".data "R1".data "a x b".data =
      .ok (wordSub "x".data "R1".data "a x b".data) ∧
    wordSub "x".data "R1".data "a x b".data = "a R1 b".data :=
  ⟨by decide,
    claim_C10_replacement_templates.1 "x".data "R1".data "a x b".data (by decide),
    rfl⟩

/-- Witness for C8 at the catalog `{BLANK: "IF(,,)",
WRAP(x): "VSTACK(x, BLANK())"}`: expanding `WRAP` succeeds with
`VSTACK(x, (IF(,,)))`, which differs from the body. -/
theorem claim_C8_witness :
    lstripEqStrip "VSTACK(x, (IF(,,)))" ≠
      lstripEqStrip ⟨pyStrip (stripComments "VSTACK(x, BLANK())").data⟩ :=
  claim_C8_consistency_guard
    [⟨"BLANK", [], "IF(,,)"⟩, ⟨"WRAP", [⟨"x"⟩], "VSTACK(x, BLANK())"⟩] 9 []
    ⟨"WRAP", [⟨"x"⟩], "VSTACK(x, BLANK())"⟩
    [("WRAP", "VSTACK(x, (IF(,,)))"), ("BLANK", "IF(,,)")]
    "VSTACK(x, (IF(,,)))"
    (.group [.group [.call "VSTACK"
      [.group [.str "x"], .group [.call "BLANK" []]]]])
    rfl rfl rfl rfl

end NamedFns
